import Mathlib

set_option maxRecDepth 8000

/-!
Verification development for the Knovator job-importer ingestion pipeline.

The JavaScript sources are shallowly embedded as Lean functions:
strings become `List Char` or `String`, JavaScript truthiness on strings
becomes emptiness tests, stateful services become explicit state-passing
functions, and fallible operations return `Except`.  Each embedded
definition mirrors one function of the source tree (`xmlFeedService`,
`importService`, `queueService`, `cronService`, the `Job` upsert loop and
the `ImportLog` schema).
-/

namespace JobImporter

/-! ## Basic string machinery (JS `includes`, `toLowerCase`) -/

/-- `listStartsWith hay pat` : `hay` begins with `pat` (exact chars). -/
def listStartsWith : List Char → List Char → Bool
  | _, [] => true
  | [], _ :: _ => false
  | c :: cs, p :: ps => (c == p) && listStartsWith cs ps

/-- JS `String.prototype.includes`: `pat` occurs contiguously in `hay`. -/
def listContains (hay pat : List Char) : Bool :=
  match hay with
  | [] => listStartsWith [] pat
  | _ :: rest => listStartsWith hay pat || listContains rest pat

/-- JS `toLowerCase` over the characters of a string. -/
def lowerStr (s : String) : List Char := s.data.map Char.toLower

/-! ## XMLFeedService.detectRemoteWork / detectExperienceLevel

Source: `xmlFeedService.js` — both heuristics build
``text = `${title} ${description}`.toLowerCase()`` and test
`text.includes(keyword)`. -/

/-- The lowercased concatenation of title, a space, and description. -/
def textOf (title description : String) : List Char :=
  lowerStr (title ++ " " ++ description)

/-- `text.includes(kw)` for a keyword literal. -/
def includesKw (t : List Char) (kw : String) : Bool := listContains t kw.data

/-- `XMLFeedService.detectRemoteWork` (the third JS argument `location` is
ignored by the source function, whose parameter list is `(title, description)`). -/
def detectRemoteWork (title description : String) : Bool :=
  (["remote", "work from home", "wfh", "telecommute", "virtual",
    "home-based", "home based", "anywhere", "distributed"]).any
    (fun kw => includesKw (textOf title description) kw)

/-- `XMLFeedService.detectExperienceLevel`: the if/else-if chain of the
source checks, in order: senior/lead/principal, then
mid/intermediate/experienced, then entry/junior/graduate/intern, then
executive/director/vp/chief, and defaults to `"mid"`. -/
def detectExperienceLevel (title description : String) : String :=
  if includesKw (textOf title description) "senior"
      || includesKw (textOf title description) "lead"
      || includesKw (textOf title description) "principal" then "senior"
  else if includesKw (textOf title description) "mid"
      || includesKw (textOf title description) "intermediate"
      || includesKw (textOf title description) "experienced" then "mid"
  else if includesKw (textOf title description) "entry"
      || includesKw (textOf title description) "junior"
      || includesKw (textOf title description) "graduate"
      || includesKw (textOf title description) "intern" then "entry"
  else if includesKw (textOf title description) "executive"
      || includesKw (textOf title description) "director"
      || includesKw (textOf title description) "vp"
      || includesKw (textOf title description) "chief" then "executive"
  else "mid"

/-! ## QueueService.getQueueStats / ImportService.getQueueStats

Source: `queueService.js` — five time-boxed sub-queries
(`getWaiting` … `getDelayed`); any rejection (broker error or per-query
timeout) lands in the `catch`, which returns the all-zero record.
`importService.js` wraps the call in its own try/catch with the same
all-zero fallback.  The broker interaction is modelled as an `Except`:
`ok` carries the five job lists, `error` carries the error message. -/

structure QueueStats where
  waiting : Nat
  active : Nat
  completed : Nat
  failed : Nat
  delayed : Nat
deriving DecidableEq, Repr

/-- `QueueService.getQueueStats`: on success the five list lengths, on any
broker error or sub-query timeout the all-zero record. -/
def queueGetQueueStats
    (broker : Except String (List Unit × List Unit × List Unit × List Unit × List Unit)) :
    QueueStats :=
  match broker with
  | Except.ok (w, a, c, f, d) => ⟨w.length, a.length, c.length, f.length, d.length⟩
  | Except.error _ => ⟨0, 0, 0, 0, 0⟩

/-- `ImportService.getQueueStats`: returns the inner call's result, with a
try/catch that degrades to the all-zero record on error. -/
def importServiceGetQueueStats (inner : Except String QueueStats) : QueueStats :=
  match inner with
  | Except.ok s => s
  | Except.error _ => ⟨0, 0, 0, 0, 0⟩

/-! ## Worker upsert loop (ImportService.initialize, job-import handler)

Source: `importService.js` lines 340–425 of the worker handler: per item,
`Job.findOne({ originalGuid, sourceFeed })`; if found, merge each truthy
incoming field over the stored one (`jobItem.x || existingJob.x`) and save;
otherwise insert a new `Job` with `status: 'active'`.  `processed` is
incremented only after a successful save; per-item exceptions append an
entry to `failedJobs`.  Mongo documents become a `List JobRecord`; a save
failure is modelled by an oracle `Option String` per item (`none` = save
succeeds, `some e` = the iteration throws with message `e`). -/

/-- JS `a || b` on strings: the empty string is falsy. -/
def strOr (a b : String) : String := if a = "" then b else a

structure JobItem where
  guid : String
  title : String
  company : String
  location : String
  description : String
  salary : String
  requirements : String
  type : String
  category : String
  industry : String
  remote : String
  applicationUrl : String
  applicationEmail : String
  publishedDate : String
deriving DecidableEq, Repr

structure JobRecord where
  title : String
  company : String
  location : String
  description : String
  salary : String
  requirements : String
  type : String
  category : String
  industry : String
  remote : String
  applicationUrl : String
  applicationEmail : String
  sourceFeed : String
  sourceName : String
  originalGuid : String
  publishedDate : String
  status : String
  rawData : JobItem
deriving DecidableEq, Repr

/-- `Job.findOne({ originalGuid: jobItem.guid, sourceFeed: feedUrl })`. -/
def findExistingJob (store : List JobRecord) (guid feedUrl : String) : Option JobRecord :=
  store.find? (fun j => j.originalGuid == guid && j.sourceFeed == feedUrl)

/-- The update branch: each listed field is merged with
`jobItem.x || existingJob.x`; `rawData` is overwritten; `guid` and
`sourceFeed` are not assigned. -/
def updateExistingJob (existing : JobRecord) (item : JobItem) : JobRecord :=
  { existing with
    title := strOr item.title existing.title
    company := strOr item.company existing.company
    location := strOr item.location existing.location
    description := strOr item.description existing.description
    salary := strOr item.salary existing.salary
    requirements := strOr item.requirements existing.requirements
    type := strOr item.type existing.type
    category := strOr item.category existing.category
    industry := strOr item.industry existing.industry
    remote := strOr item.remote existing.remote
    applicationUrl := strOr item.applicationUrl existing.applicationUrl
    applicationEmail := strOr item.applicationEmail existing.applicationEmail
    publishedDate := strOr item.publishedDate existing.publishedDate
    rawData := item }

/-- The insert branch: a new `Job` document with `status: 'active'`. -/
def newJobRecord (item : JobItem) (feedUrl feedName : String) : JobRecord :=
  { title := item.title
    company := item.company
    location := item.location
    description := item.description
    salary := item.salary
    requirements := item.requirements
    type := item.type
    category := item.category
    industry := item.industry
    remote := item.remote
    applicationUrl := item.applicationUrl
    applicationEmail := item.applicationEmail
    sourceFeed := feedUrl
    sourceName := feedName
    originalGuid := item.guid
    publishedDate := item.publishedDate
    status := "active"
    rawData := item }

/-- `existingJob.save()`: the found document is replaced in place. -/
def replaceFirstJob (store : List JobRecord) (guid feedUrl : String) (r : JobRecord) :
    List JobRecord :=
  match store with
  | [] => []
  | j :: rest =>
    if j.originalGuid == guid && j.sourceFeed == feedUrl then r :: rest
    else j :: replaceFirstJob rest guid feedUrl r

structure FailedJob where
  guid : String
  title : String
  reason : String
  error : String
deriving DecidableEq, Repr

/-- Accumulator of the worker's per-batch loop. -/
structure WorkerAcc where
  store : List JobRecord
  processed : Nat
  newJobs : Nat
  updatedJobs : Nat
  failedJobs : List FailedJob
deriving DecidableEq, Repr

/-- One iteration of the worker's `for (const jobItem of jobData)` loop.
`saveOk = none` means the iteration succeeds; `saveOk = some e` means it
throws with message `e`, leaving the store untouched and appending a
failed entry with reason `Processing error`. -/
def processJobItem (feedUrl feedName : String) (acc : WorkerAcc)
    (item : JobItem) (saveOk : Option String) : WorkerAcc :=
  match saveOk with
  | some e =>
    { acc with failedJobs := acc.failedJobs ++ [⟨item.guid, item.title, "Processing error", e⟩] }
  | none =>
    match findExistingJob acc.store item.guid feedUrl with
    | some existing =>
      { acc with
        store := replaceFirstJob acc.store item.guid feedUrl (updateExistingJob existing item)
        updatedJobs := acc.updatedJobs + 1
        processed := acc.processed + 1 }
    | none =>
      { acc with
        store := acc.store ++ [newJobRecord item feedUrl feedName]
        newJobs := acc.newJobs + 1
        processed := acc.processed + 1 }

/-- The whole per-batch loop of the worker handler. -/
def workerProcessBatch (feedUrl feedName : String) (store : List JobRecord)
    (jobData : List (JobItem × Option String)) : WorkerAcc :=
  jobData.foldl (fun acc it => processJobItem feedUrl feedName acc it.1 it.2)
    ⟨store, 0, 0, 0, []⟩

/-- Number of stored records with the given (guid, sourceFeed) key. -/
def countKey (store : List JobRecord) (guid feedUrl : String) : Nat :=
  (store.filter (fun j => j.originalGuid == guid && j.sourceFeed == feedUrl)).length

/-! ## ImportLog (importLogSchema) and the orchestrator

Source: the `ImportLog` mongoose schema, `ImportService.processFeed`,
`ImportService.startImport` and `CronService.executeScheduledImport`.
The feed fetch and the queue submission are modelled by oracles keyed on
the feed URL. -/

structure ImportLog where
  sourceFeed : String
  sourceName : String
  totalFetched : Nat
  totalImported : Nat := 0
  newJobs : Nat := 0
  updatedJobs : Nat := 0
  failedJobs : List FailedJob := []
  status : String
  error : String := ""
  queueJobId : String := ""
deriving DecidableEq, Repr

/-- The worker's final write-back onto the associated ImportLog
(`totalImported`, `newJobs`, `updatedJobs`, `failedJobs`,
`status = 'completed'`). -/
def workerFinishLog (log : ImportLog) (acc : WorkerAcc) : ImportLog :=
  { log with
    totalImported := acc.processed
    newJobs := acc.newJobs
    updatedJobs := acc.updatedJobs
    failedJobs := acc.failedJobs
    status := "completed" }

structure Feed where
  url : String
  name : String
deriving DecidableEq, Repr

/-- The shape of `xmlFeedService.fetchFeed`'s resolved value as consumed
by `processFeed`. -/
structure FetchedFeedResult where
  success : Bool
  jobs : List JobItem
  totalFetched : Nat
  duration : Nat
  error : String := ""
deriving DecidableEq, Repr

structure ImportResultEntry where
  feed : String
  success : Bool
  error : String := ""
  jobsFetched : Nat := 0
  jobsQueued : Nat := 0
  duration : Nat := 0
  queueJobId : String := ""
deriving DecidableEq, Repr

/-- Environment of one orchestrated pass: the configured feed list plus
oracles for the fetch outcome and the queue submission outcome of each
feed URL. -/
structure ImportEnv where
  feeds : List Feed
  fetchResult : String → FetchedFeedResult
  enqueueResult : String → Except String String

/-- `ImportService.processFeed`: on `!feedResult.success` throw without
creating an ImportLog; otherwise create a running ImportLog, submit the
batch, and either record the queue job id or mark the log failed with the
error and rethrow.  Returns the updated log store, the list of feed URLs
for which a queue submission was attempted, and the outcome. -/
def processFeed (env : ImportEnv) (logs : List ImportLog) (feed : Feed) :
    List ImportLog × List String × Except String ImportResultEntry :=
  let feedResult := env.fetchResult feed.url
  if feedResult.success = false then
    (logs, [], Except.error feedResult.error)
  else
    let log0 : ImportLog :=
      { sourceFeed := feed.url, sourceName := feed.name,
        totalFetched := feedResult.totalFetched, status := "running" }
    match env.enqueueResult feed.url with
    | Except.ok jid =>
      (logs ++ [{ log0 with queueJobId := jid }], [feed.url],
       Except.ok
         { feed := feed.name, success := true,
           jobsFetched := feedResult.jobs.length, jobsQueued := feedResult.jobs.length,
           duration := feedResult.duration, queueJobId := jid })
    | Except.error e =>
      (logs ++ [{ log0 with status := "failed", error := e }], [feed.url], Except.error e)

/-- One step of `startImport`'s per-feed loop: a `processFeed` failure is
caught, recorded as a failed result entry, and the loop continues. -/
def startImportStep (env : ImportEnv)
    (st : List ImportLog × List String × List ImportResultEntry) (feed : Feed) :
    List ImportLog × List String × List ImportResultEntry :=
  match processFeed env st.1 feed with
  | (logs', att, Except.ok r) => (logs', st.2.1 ++ att, st.2.2 ++ [r])
  | (logs', att, Except.error e) =>
    (logs', st.2.1 ++ att, st.2.2 ++ [{ feed := feed.name, success := false, error := e }])

structure OrchestratorState where
  isRunning : Bool
  currentImportId : Option String
  logs : List ImportLog
deriving DecidableEq, Repr

structure ImportSummary where
  importId : String
  totalFeeds : Nat
  results : List ImportResultEntry
deriving DecidableEq, Repr

/-- `ImportService.startImport`: fails fast with the busy error while a
run is in progress (before any state change, log write or queue
submission); otherwise processes every configured feed in order and, in a
finally-equivalent path, clears the running flag.  The second component
lists the feed URLs submitted to the queue; the third is the returned
summary or the rejection. -/
def startImport (env : ImportEnv) (st : OrchestratorState) (newId : String) :
    OrchestratorState × List String × Except String ImportSummary :=
  if st.isRunning then
    (st, [], Except.error "Import is already running")
  else
    let fin := env.feeds.foldl (startImportStep env) (st.logs, [], [])
    ({ isRunning := false, currentImportId := none, logs := fin.1 },
     fin.2.1,
     Except.ok { importId := newId, totalFeeds := env.feeds.length, results := fin.2.2 })

inductive CronEvent where
  | cronStatus (kind : String)
  | importStarted
  | calledStartImport
  | importCompleted
  | importError (msg : String)
deriving DecidableEq, Repr

/-- `CronService.executeScheduledImport`: always emits `cron-triggered`;
if an import is already running it emits `cron-skipped` and returns
without touching the import service; otherwise it emits the started
event, invokes `startImport`, and emits completed or error. -/
def executeScheduledImport (env : ImportEnv) (st : OrchestratorState) (newId : String) :
    OrchestratorState × List CronEvent :=
  if st.isRunning then
    (st, [CronEvent.cronStatus "cron-triggered", CronEvent.cronStatus "cron-skipped"])
  else
    match startImport env st newId with
    | (st', _, Except.ok _) =>
      (st', [CronEvent.cronStatus "cron-triggered", CronEvent.importStarted,
             CronEvent.calledStartImport, CronEvent.importCompleted])
    | (st', _, Except.error e) =>
      (st', [CronEvent.cronStatus "cron-triggered", CronEvent.importStarted,
             CronEvent.calledStartImport, CronEvent.importError e])

/-! ## XMLFeedService.extractJobsFromRawXML (regex fallback extraction)

Source: `xmlFeedService.js` — block patterns
`/<item[^>]*>([\s\S]*?)<\/item>/gi` (and `entry`, `job`): scan left to
right; at a position the opener is the literal `<tag` (case-insensitive)
followed by a greedy run of non-`>` characters and a `>`; the lazy body
ends at the first following `</tag>`; scanning resumes after the match.
Field patterns like `/<title[^>]*>([^<]*)<\/title>/i` capture the greedy
non-`<` run between the opener and the literal closer; alternations try
the alternatives in written order at each position. -/

/-- Case-insensitive literal prefix test (the `/i` flag). -/
def startsWithCI : List Char → List Char → Bool
  | _, [] => true
  | [], _ :: _ => false
  | c :: cs, p :: ps => (c.toLower == p.toLower) && startsWithCI cs ps

/-- The literal opener `<tag>` as written in a feed. -/
def openTagLit (tag : List Char) : List Char := '<' :: tag ++ ['>']

/-- The literal closer `</tag>`. -/
def closeTagLit (tag : List Char) : List Char := '<' :: '/' :: tag ++ ['>']

/-- Match `<tag[^>]*>` at the head of `s` (case-insensitive); returns the
rest after the `>`. -/
def matchOpenTag (tag : List Char) (s : List Char) : Option (List Char) :=
  if startsWithCI s ('<' :: tag) then
    match (s.drop (tag.length + 1)).dropWhile (fun c => c != '>') with
    | '>' :: r => some r
    | _ => none
  else none

/-- Find the first occurrence of `</tag>` (case-insensitive); returns the
lazily-matched body and the rest after the closer. -/
def findCloseSplit (tag : List Char) : List Char → Option (List Char × List Char)
  | [] => none
  | c :: cs =>
    if startsWithCI (c :: cs) (closeTagLit tag) then
      some ([], (c :: cs).drop (tag.length + 3))
    else
      match findCloseSplit tag cs with
      | some (body, rest) => some (c :: body, rest)
      | none => none

/-- Fuelled scanner for `/<tag[^>]*>([\s\S]*?)<\/tag>/gi`: collects the
full matched blocks, resuming after each match; on a failed position it
advances one character.  The fuel bounds the scan (`fuel = s.length`
always suffices, see `findBlocksF_congr`). -/
def findBlocksF (tag : List Char) : Nat → List Char → List (List Char)
  | 0, _ => []
  | _ + 1, [] => []
  | fuel + 1, c :: cs =>
    match matchOpenTag tag (c :: cs) with
    | some afterOpen =>
      match findCloseSplit tag afterOpen with
      | some (_, rest) =>
        ((c :: cs).take ((c :: cs).length - rest.length)) :: findBlocksF tag fuel rest
      | none => findBlocksF tag fuel cs
    | none => findBlocksF tag fuel cs

/-- `xmlString.match(/<tag[^>]*>([\s\S]*?)<\/tag>/gi)` — all matched
blocks. -/
def findBlocks (tag s : List Char) : List (List Char) := findBlocksF tag s.length s

/-- Match `<tag[^>]*>([^<]*)</tag>` at the head of `s`; returns the
captured text. -/
def matchFieldAt (tag : List Char) (s : List Char) : Option (List Char) :=
  match matchOpenTag tag s with
  | none => none
  | some afterOpen =>
    if startsWithCI (afterOpen.dropWhile (fun c => c != '<')) (closeTagLit tag) then
      some (afterOpen.takeWhile (fun c => c != '<'))
    else none

/-- First match of a single-tag field pattern anywhere in the block. -/
def findField (tag : List Char) : List Char → Option (List Char)
  | [] => none
  | c :: cs =>
    match matchFieldAt tag (c :: cs) with
    | some cap => some cap
    | none => findField tag cs

/-- First match of an alternation field pattern such as
`<(description|summary|content)[^>]*>([^<]*)<\/\1>`: at each position the
alternatives are tried in written order. -/
def findFieldAlt (tags : List (List Char)) : List Char → Option (List Char)
  | [] => none
  | c :: cs =>
    match tags.findSome? (fun t => matchFieldAt t (c :: cs)) with
    | some cap => some cap
    | none => findFieldAlt tags cs

/-- JS `String.prototype.trim`. -/
def trimL (l : List Char) : List Char :=
  ((l.dropWhile Char.isWhitespace).reverse.dropWhile Char.isWhitespace).reverse

/-- The non-reproducible inputs of a synthesized GUID
(`Date.now()` and `Math.random()`), supplied as opaque values. -/
structure FreshVals where
  now : String
  rnd : String
deriving DecidableEq, Repr

/-- `` `${feedUrl}-${Date.now()}-${Math.random()}` ``. -/
def synthGuid (feedUrl : String) (fv : FreshVals) : String :=
  feedUrl ++ "-" ++ fv.now ++ "-" ++ fv.rnd

/-- The record shape produced by `normalizeJob` and by the fallback
extractor `extractJobFromRawXML`. -/
structure NormJob where
  guid : String
  title : String
  description : String
  company : String
  location : String
  jobType : String
  category : String
  salary : String
  url : String
  pubDate : String
  sourceFeed : String
  sourceName : String
  tags : List String
  isRemote : Bool
  experienceLevel : String
  status : String
deriving DecidableEq, Repr

/-- `XMLFeedService.extractJobFromRawXML`: per-block regex field pulls
with the source's defaults, a synthesized GUID, and the two inference
heuristics over the extracted title and description. -/
def extractJobFromRawXML (xmlItem : List Char) (feedUrl feedName : String)
    (fv : FreshVals) : NormJob :=
  let title := match findField "title".data xmlItem with
    | some t => trimL t
    | none => "Untitled Job".data
  let description := match findFieldAlt
      ["description".data, "summary".data, "content".data] xmlItem with
    | some d => trimL d
    | none => []
  let url := match findField "link".data xmlItem with
    | some u => trimL u
    | none => []
  let company := match findFieldAlt
      ["company".data, "employer".data, "organization".data] xmlItem with
    | some c => trimL c
    | none => "Unknown Company".data
  let location := match findFieldAlt
      ["location".data, "city".data, "place".data] xmlItem with
    | some c => trimL c
    | none => []
  { guid := synthGuid feedUrl fv
    title := String.mk title
    description := String.mk description
    company := String.mk company
    location := String.mk location
    jobType := ""
    category := ""
    salary := ""
    url := String.mk url
    pubDate := fv.now
    sourceFeed := feedUrl
    sourceName := feedName
    tags := []
    isRemote := detectRemoteWork (String.mk title) (String.mk description)
    experienceLevel := detectExperienceLevel (String.mk title) (String.mk description)
    status := "active" }

/-- `XMLFeedService.extractJobsFromRawXML`: try the `item`, `entry`, and
`job` block patterns in order; the first pattern with matches wins
(`break`), and each match yields one extracted job.  `fresh` supplies the
per-item time/random values. -/
def extractJobsFromRawXML (xmlString : List Char) (feedUrl feedName : String)
    (fresh : Nat → FreshVals) : List NormJob :=
  let itemMatches := findBlocks "item".data xmlString
  if itemMatches.isEmpty = false then
    itemMatches.mapIdx (fun i b => extractJobFromRawXML b feedUrl feedName (fresh i))
  else
    let entryMatches := findBlocks "entry".data xmlString
    if entryMatches.isEmpty = false then
      entryMatches.mapIdx (fun i b => extractJobFromRawXML b feedUrl feedName (fresh i))
    else
      let jobMatches := findBlocks "job".data xmlString
      if jobMatches.isEmpty = false then
        jobMatches.mapIdx (fun i b => extractJobFromRawXML b feedUrl feedName (fresh i))
      else []

/-! ## XMLFeedService.fetchFeed (retry loop with fallback)

Source: `xmlFeedService.js` lines 32–112.  One iteration per attempt;
the outcome of attempt `i` is given by an oracle.  `httpError` models a
non-2xx status or transport failure (thrown before `xmlData` is
assigned); `nonStringPayload` models a non-string response body
(`xmlData` overwritten with a non-string, unusable by the fallback);
`badPayload` models a received string body whose XML checks or parse
throw (`xmlData` keeps the raw text); `parsed` is full success.  After
the final failed attempt the fallback extractor runs over the last
string `xmlData`; otherwise the loop sleeps `2^retries` seconds. -/

inductive AttemptResult where
  | httpError (msg : String)
  | nonStringPayload (msg : String)
  | badPayload (raw : List Char) (msg : String)
  | parsed (jobs : List NormJob)

structure FetchResultModel where
  jobs : List NormJob
  totalFetched : Nat
  duration : Nat
  success : Bool
  error : String := ""
  usedFallback : Bool := false
deriving DecidableEq, Repr

/-- The final-failure return of `fetchFeed`: fallback extraction over the
last raw string payload (none if no attempt stored a string), with
`success` true only when the fallback produced at least one job. -/
def fallbackReturn (xmlData : Option (List Char)) (feedUrl feedName : String)
    (fresh : Nat → FreshVals) (duration : Nat) (msg : String) : FetchResultModel :=
  let fallbackJobs := match xmlData with
    | some s => extractJobsFromRawXML s feedUrl feedName fresh
    | none => []
  { jobs := fallbackJobs
    totalFetched := fallbackJobs.length
    duration := duration
    success := decide (0 < fallbackJobs.length)
    error := msg
    usedFallback := decide (0 < fallbackJobs.length) }

/-- The `while (retries < maxRetries)` loop, with `remaining` the number
of attempts left, `r` the attempts already failed, and `xmlData` the last
string body received.  Returns the resolved value (`none` models the loop
falling through, i.e. `maxRetries = 0`) and the list of backoff sleeps in
milliseconds. -/
def fetchFeedGo (attempt : Nat → AttemptResult) (feedUrl feedName : String)
    (fresh : Nat → FreshVals) (duration : Nat) :
    Nat → Nat → Option (List Char) → Option FetchResultModel × List Nat
  | 0, _, _ => (none, [])
  | remaining + 1, r, xmlData =>
    match attempt r with
    | AttemptResult.parsed jobs =>
      (some { jobs := jobs, totalFetched := jobs.length, duration := duration,
              success := true }, [])
    | AttemptResult.httpError msg =>
      if remaining = 0 then
        (some (fallbackReturn xmlData feedUrl feedName fresh duration msg), [])
      else
        let next := fetchFeedGo attempt feedUrl feedName fresh duration remaining (r + 1) xmlData
        (next.1, 2 ^ (r + 1) * 1000 :: next.2)
    | AttemptResult.nonStringPayload msg =>
      if remaining = 0 then
        (some (fallbackReturn none feedUrl feedName fresh duration msg), [])
      else
        let next := fetchFeedGo attempt feedUrl feedName fresh duration remaining (r + 1) none
        (next.1, 2 ^ (r + 1) * 1000 :: next.2)
    | AttemptResult.badPayload raw msg =>
      if remaining = 0 then
        (some (fallbackReturn (some raw) feedUrl feedName fresh duration msg), [])
      else
        let next := fetchFeedGo attempt feedUrl feedName fresh duration remaining (r + 1) (some raw)
        (next.1, 2 ^ (r + 1) * 1000 :: next.2)

/-- `XMLFeedService.fetchFeed` for a configured retry maximum
(`MAX_RETRIES`, default 3). -/
def fetchFeedModel (attempt : Nat → AttemptResult) (feedUrl feedName : String)
    (fresh : Nat → FreshVals) (duration : Nat) (maxRetries : Nat) :
    Option FetchResultModel × List Nat :=
  fetchFeedGo attempt feedUrl feedName fresh duration maxRetries 0 none

/-! ## XMLFeedService.cleanXML

Source: `xmlFeedService.js` lines 115–136.  Five sequential steps over
the raw string: strip one leading BOM (anchored U+FEFF), delete every NUL
(`/\x00/g`), quote unquoted attribute values
(`/(\w+)\s*=\s*(?!["'])/g` → `$1=""`), escape each `&` not starting a
recognized entity (`/&(?!(amp|lt|gt|quot|apos);)/g` → `&amp;`), and
prepend an XML declaration when `'<?xml'` is absent.

The two scanning replacements model the JS regex engine exactly:
leftmost match, greedy `\w+`/`\s*` runs, and the one backtracking case —
when the greedy `\s*` after `=` is followed by a quote, the engine gives
back one whitespace character so the negative lookahead succeeds.
JS `\w` is `[A-Za-z0-9_]`; JS `\s` is the explicit whitespace set below
(which includes U+FEFF). -/

/-- JS `\w`. -/
def isWordChar (c : Char) : Bool := c.isAlphanum || c == '_'

/-- The JS `\s` character set. -/
def spaceChars : List Char :=
  ['\t', '\n', '\x0b', '\x0c', '\r', ' ', '\u00A0', '\u1680',
   '\u2000', '\u2001', '\u2002', '\u2003', '\u2004', '\u2005', '\u2006',
   '\u2007', '\u2008', '\u2009', '\u200A', '\u2028', '\u2029', '\u202F',
   '\u205F', '\u3000', '\uFEFF']

/-- JS `\s`. -/
def isSpaceChar (c : Char) : Bool := spaceChars.contains c

/-- The two quote characters of the negative lookahead `(?!["'])`. -/
def isQuoteChar (c : Char) : Bool := c == '"' || c == '\''

/-- Whether the next character is a quote (false at end of input, where
the negative lookahead trivially succeeds). -/
def headIsQuote : List Char → Bool
  | [] => false
  | c :: _ => isQuoteChar c

/-- `replace` of the anchored BOM pattern: one leading U+FEFF removed. -/
def stripBOM : List Char → List Char
  | '\uFEFF' :: r => r
  | l => l

/-- `replace(/\x00/g, '')`. -/
def stripNul (l : List Char) : List Char := l.filter (fun c => c != '\x00')

/-- Attempt `(\w+)\s*=\s*(?!["'])` at the head of `l`.  On success
returns the captured word run and the remainder after the matched text.
The greedy `\w+` and the two `\s*` runs are maximal; when the greedy
whitespace after `=` is followed by a quote, the engine backtracks one
whitespace character (then the lookahead sees whitespace, not a quote),
so the last whitespace character is left unconsumed. -/
def tryAttrMatch (l : List Char) : Option (List Char × List Char) :=
  if (l.takeWhile isWordChar).isEmpty then none
  else
    match (l.dropWhile isWordChar).dropWhile isSpaceChar with
    | [] => none
    | a :: l3 =>
      if a = '=' then
        if headIsQuote (l3.dropWhile isSpaceChar) = false then
          some (l.takeWhile isWordChar, l3.dropWhile isSpaceChar)
        else
          match (l3.takeWhile isSpaceChar).getLast? with
          | some c => some (l.takeWhile isWordChar, c :: l3.dropWhile isSpaceChar)
          | none => none
      else none

/-- Fuelled scanner for `replace(/(\w+)\s*=\s*(?!["'])/g, '$1="")`:
each match is replaced by the captured word followed by `=""`, scanning
resumes after the matched text; a failed position advances one
character.  `fuel = l.length` always suffices. -/
def fixAttrF : Nat → List Char → List Char
  | 0, l => l
  | _ + 1, [] => []
  | fuel + 1, c :: rest =>
    match tryAttrMatch (c :: rest) with
    | some (w, r) => w ++ '=' :: '"' :: '"' :: fixAttrF fuel r
    | none => c :: fixAttrF fuel rest

/-- `replace(/(\w+)\s*=\s*(?!["'])/g, '$1="")`. -/
def fixAttr (l : List Char) : List Char := fixAttrF l.length l

/-- The lookahead `(amp|lt|gt|quot|apos);` after a `&`. -/
def entityHead (l : List Char) : Bool :=
  listStartsWith l "amp;".data || listStartsWith l "lt;".data ||
    listStartsWith l "gt;".data || listStartsWith l "quot;".data ||
    listStartsWith l "apos;".data

/-- `replace(/&(?!(amp|lt|gt|quot|apos);)/g, '&amp;')`. -/
def fixAmp : List Char → List Char
  | [] => []
  | c :: rest =>
    if c = '&' then
      if entityHead rest then '&' :: fixAmp rest
      else '&' :: 'a' :: 'm' :: 'p' :: ';' :: fixAmp rest
    else c :: fixAmp rest

/-- The injected declaration (with its trailing newline). -/
def xmlDecl : List Char := ("<?xml version=\"1.0\" encoding=\"UTF-8\"?>" ++ "\n").data

/-- `cleaned.includes('<?xml')`. -/
def containsXmlDecl (l : List Char) : Bool := listContains l "<?xml".data

/-- `XMLFeedService.cleanXML`: the five steps in source order. -/
def cleanXML (l : List Char) : List Char :=
  let c4 := fixAmp (fixAttr (stripNul (stripBOM l)))
  if containsXmlDecl c4 then c4 else xmlDecl ++ c4

/-! ### Verification predicates for `cleanXML`

`wordBeforeCtx b x` is the JS engine's "a word character precedes,
modulo whitespace" state after reading `x` (with `b` the state before
`x`); an `=` is harmless exactly when a quote follows it directly or no
word character precedes it.  `EqSplitSafe` states that every `=` in the
string is harmless; `eqSafeGo` decides it by a single scan; `ampOk`
states that every `&` starts a recognized entity. -/

/-- The last non-whitespace character of `x`, if any. -/
def lastNonWs (x : List Char) : Option Char := (x.reverse.dropWhile isSpaceChar).head?

/-- Whether a word character immediately precedes (skipping whitespace),
with `b` the answer for the empty string. -/
def wordBeforeCtx (b : Bool) (x : List Char) : Bool :=
  match lastNonWs x with
  | some c => isWordChar c
  | none => b

/-- `wordBeforeCtx` at the start of the input. -/
def wordBefore (x : List Char) : Bool := wordBeforeCtx false x

/-- Every `=` in `l` fails the attribute pattern: a quote follows it
directly, or no word character precedes it. -/
def EqSplitSafe (l : List Char) : Prop :=
  ∀ x y, l = x ++ '=' :: y → headIsQuote y = true ∨ wordBefore x = false

/-- One-scan decision procedure for `EqSplitSafe` (with `b` the
preceding-word state). -/
def eqSafeGo : Bool → List Char → Bool
  | _, [] => true
  | b, c :: y =>
    (if c = '=' then headIsQuote y || !b else true) &&
      eqSafeGo (if isSpaceChar c then b else isWordChar c) y

/-- Executable form of `EqSplitSafe`. -/
def eqSplitSafeB (l : List Char) : Bool := eqSafeGo false l

/-- Every `&` in `l` is followed by a recognized entity. -/
def ampOk : List Char → Bool
  | [] => true
  | c :: r => (if c = '&' then entityHead r else true) && ampOk r

end JobImporter

namespace JobImporter

/-! ## Theorems -/

/-- Claim C3 (counterexample): the spec claims the degraded stats result
carries an explicit "unavailable" marker distinguishing it from genuine
zeros.  The source's catch blocks return the bare all-zero record — no
marker field exists anywhere — so the degraded result is equal to, hence
indistinguishable from, the genuine result of an empty reachable queue. -/
theorem claim_C3_counterexample :
    queueGetQueueStats (Except.error "connect ECONNREFUSED 127.0.0.1:6379") =
      queueGetQueueStats (Except.ok ([], [], [], [], [])) ∧
    queueGetQueueStats (Except.error "Operation timed out after 3000ms") =
      ⟨0, 0, 0, 0, 0⟩ ∧
    importServiceGetQueueStats
        (Except.error "Queue stats operation timed out after 15 seconds") =
      ⟨0, 0, 0, 0, 0⟩ := ⟨rfl, rfl, rfl⟩

/-- Claim C3 (amended): for every state of the queue broker, the
queue-stats query never throws: on any broker error or per-sub-query
timeout it returns the all-zero record (both at the queue-service layer
and at the import-service wrapper), but without any "unavailable" marker,
so the degraded record is identical to the one produced by a reachable
broker whose queues are empty. -/
theorem claim_C3 (e : String)
    (broker : Except String (List Unit × List Unit × List Unit × List Unit × List Unit)) :
    queueGetQueueStats (Except.error e) = ⟨0, 0, 0, 0, 0⟩ ∧
    importServiceGetQueueStats (Except.error e) = ⟨0, 0, 0, 0, 0⟩ ∧
    importServiceGetQueueStats (Except.ok (queueGetQueueStats broker)) =
      queueGetQueueStats broker ∧
    queueGetQueueStats (Except.error e) =
      queueGetQueueStats (Except.ok ([], [], [], [], [])) :=
  ⟨rfl, rfl, rfl, rfl⟩

/-- Claim C4: `startImport` invoked while the running flag is set rejects
with the busy error before any state change: the orchestrator state
(including every ImportLog) is returned unchanged and no feed batch is
submitted to the queue. -/
theorem claim_C4 (env : ImportEnv) (st : OrchestratorState) (newId : String)
    (h : st.isRunning = true) :
    startImport env st newId = (st, [], Except.error "Import is already running") := by
  unfold startImport
  rw [h]
  rfl

/-- Witness for C4 at a concrete busy state. -/
theorem claim_C4_witness :
    startImport
        ⟨[⟨"http://feed.example/a", "Feed A"⟩],
         fun _ => ⟨true, [], 0, 0, ""⟩, fun _ => Except.ok "1"⟩
        ⟨true, some "42", []⟩ "43" =
      (⟨true, some "42", []⟩, [], Except.error "Import is already running") :=
  claim_C4 _ _ _ rfl

/-- Claim C9: a scheduled tick that fires while an import is already
running never invokes `startImport`: the cron handler leaves the
orchestrator state untouched and emits the `cron-skipped` notification. -/
theorem claim_C9 (env : ImportEnv) (st : OrchestratorState) (newId : String)
    (h : st.isRunning = true) :
    executeScheduledImport env st newId =
      (st, [CronEvent.cronStatus "cron-triggered", CronEvent.cronStatus "cron-skipped"]) ∧
    CronEvent.calledStartImport ∉ (executeScheduledImport env st newId).2 ∧
    CronEvent.cronStatus "cron-skipped" ∈ (executeScheduledImport env st newId).2 := by
  have heq : executeScheduledImport env st newId =
      (st, [CronEvent.cronStatus "cron-triggered", CronEvent.cronStatus "cron-skipped"]) := by
    unfold executeScheduledImport
    rw [h]
    rfl
  refine ⟨heq, ?_, ?_⟩
  · rw [heq]; simp
  · rw [heq]; simp

/-- Witness for C9 at a concrete busy state. -/
theorem claim_C9_witness :
    executeScheduledImport
        ⟨[⟨"http://feed.example/a", "Feed A"⟩],
         fun _ => ⟨true, [], 0, 0, ""⟩, fun _ => Except.ok "1"⟩
        ⟨true, some "7", []⟩ "8" =
      (⟨true, some "7", []⟩,
       [CronEvent.cronStatus "cron-triggered", CronEvent.cronStatus "cron-skipped"]) ∧
    CronEvent.calledStartImport ∉
      (executeScheduledImport
        ⟨[⟨"http://feed.example/a", "Feed A"⟩],
         fun _ => ⟨true, [], 0, 0, ""⟩, fun _ => Except.ok "1"⟩
        ⟨true, some "7", []⟩ "8").2 ∧
    CronEvent.cronStatus "cron-skipped" ∈
      (executeScheduledImport
        ⟨[⟨"http://feed.example/a", "Feed A"⟩],
         fun _ => ⟨true, [], 0, 0, ""⟩, fun _ => Except.ok "1"⟩
        ⟨true, some "7", []⟩ "8").2 :=
  claim_C9 _ _ _ rfl

/-- Any log present in the loop state survives one `startImportStep`
(logs are only ever appended to). -/
theorem startImportStep_logs_mem (env : ImportEnv) (feed : Feed)
    (s : List ImportLog × List String × List ImportResultEntry)
    (x : ImportLog) (hx : x ∈ s.1) : x ∈ (startImportStep env s feed).1 := by
  rcases s with ⟨logs, att, res⟩
  unfold startImportStep processFeed
  by_cases hs : (env.fetchResult feed.url).success = false
  · simp only [hs, if_true, eq_self_iff_true]
    exact hx
  · simp only [hs, if_false]
    cases henq : env.enqueueResult feed.url <;>
      simp only [] <;> exact List.mem_append_left _ hx

/-- Any result entry present in the loop state survives one
`startImportStep`. -/
theorem startImportStep_results_mem (env : ImportEnv) (feed : Feed)
    (s : List ImportLog × List String × List ImportResultEntry)
    (r : ImportResultEntry) (hr : r ∈ s.2.2) : r ∈ (startImportStep env s feed).2.2 := by
  rcases s with ⟨logs, att, res⟩
  unfold startImportStep processFeed
  by_cases hs : (env.fetchResult feed.url).success = false
  · simp only [hs, if_true]
    exact List.mem_append_left _ hr
  · simp only [hs, if_false]
    cases henq : env.enqueueResult feed.url <;>
      simp only [] <;> exact List.mem_append_left _ hr

/-- Logs survive the whole per-feed loop. -/
theorem startImportLoop_logs_mem (env : ImportEnv) :
    ∀ (feeds : List Feed) (s : List ImportLog × List String × List ImportResultEntry)
      (x : ImportLog), x ∈ s.1 → x ∈ (List.foldl (startImportStep env) s feeds).1 := by
  intro feeds
  induction feeds with
  | nil => intro s x hx; simpa using hx
  | cons hd tl ih =>
    intro s x hx
    rw [List.foldl_cons]
    exact ih _ x (startImportStep_logs_mem env hd s x hx)

/-- Result entries survive the whole per-feed loop. -/
theorem startImportLoop_results_mem (env : ImportEnv) :
    ∀ (feeds : List Feed) (s : List ImportLog × List String × List ImportResultEntry)
      (r : ImportResultEntry), r ∈ s.2.2 → r ∈ (List.foldl (startImportStep env) s feeds).2.2 := by
  intro feeds
  induction feeds with
  | nil => intro s r hr; simpa using hr
  | cons hd tl ih =>
    intro s r hr
    rw [List.foldl_cons]
    exact ih _ r (startImportStep_results_mem env hd s r hr)

/-- Every feed contributes exactly one result entry: the loop's result
list grows by one per configured feed. -/
theorem startImportLoop_results_length (env : ImportEnv) :
    ∀ (feeds : List Feed) (s : List ImportLog × List String × List ImportResultEntry),
      (List.foldl (startImportStep env) s feeds).2.2.length = s.2.2.length + feeds.length := by
  intro feeds
  induction feeds with
  | nil => intro s; simp
  | cons hd tl ih =>
    intro s
    rw [List.foldl_cons, ih]
    have hstep : (startImportStep env s hd).2.2.length = s.2.2.length + 1 := by
      rcases s with ⟨logs, att, res⟩
      unfold startImportStep processFeed
      by_cases hs : (env.fetchResult hd.url).success = false
      · simp [hs]
      · cases henq : env.enqueueResult hd.url <;> simp [hs, henq]
    rw [hstep]
    simp [List.length_cons]
    omega

/-- A feed whose fetch succeeds but whose enqueue fails contributes a
`failed` ImportLog with the enqueue error. -/
theorem startImportLoop_failed_log (env : ImportEnv) :
    ∀ (feeds : List Feed) (s : List ImportLog × List String × List ImportResultEntry)
      (f : Feed) (e : String), f ∈ feeds →
      (env.fetchResult f.url).success = true →
      env.enqueueResult f.url = Except.error e →
      ∃ log ∈ (List.foldl (startImportStep env) s feeds).1,
        log.sourceFeed = f.url ∧ log.sourceName = f.name ∧
        log.status = "failed" ∧ log.error = e := by
  intro feeds
  induction feeds with
  | nil => intro s f e hf; exact absurd hf (List.not_mem_nil f)
  | cons hd tl ih =>
    intro s f e hf hfetch henq
    rw [List.foldl_cons]
    rcases List.mem_cons.mp hf with rfl | hmem
    · rcases s with ⟨logs, att, res⟩
      have hs : ¬ (env.fetchResult f.url).success = false := by simp [hfetch]
      have hlog :
          ({ sourceFeed := f.url, sourceName := f.name,
             totalFetched := (env.fetchResult f.url).totalFetched,
             status := "failed", error := e : ImportLog }) ∈
            (startImportStep env (logs, att, res) f).1 := by
        unfold startImportStep processFeed
        simp only [hs, if_false, henq]
        exact List.mem_append_right _ (List.mem_singleton.mpr rfl)
      exact ⟨_, startImportLoop_logs_mem env tl _ _ hlog, rfl, rfl, rfl, rfl⟩
    · exact ih _ f e hmem hfetch henq

/-- A feed whose fetch and enqueue both succeed contributes a successful
result entry. -/
theorem startImportLoop_ok_result (env : ImportEnv) :
    ∀ (feeds : List Feed) (s : List ImportLog × List String × List ImportResultEntry)
      (g : Feed) (jid : String), g ∈ feeds →
      (env.fetchResult g.url).success = true →
      env.enqueueResult g.url = Except.ok jid →
      ∃ r ∈ (List.foldl (startImportStep env) s feeds).2.2,
        r.feed = g.name ∧ r.success = true := by
  intro feeds
  induction feeds with
  | nil => intro s g jid hg; exact absurd hg (List.not_mem_nil g)
  | cons hd tl ih =>
    intro s g jid hg hfetch henq
    rw [List.foldl_cons]
    rcases List.mem_cons.mp hg with rfl | hmem
    · rcases s with ⟨logs, att, res⟩
      have hs : ¬ (env.fetchResult g.url).success = false := by simp [hfetch]
      have hres :
          ({ feed := g.name, success := true,
             jobsFetched := (env.fetchResult g.url).jobs.length,
             jobsQueued := (env.fetchResult g.url).jobs.length,
             duration := (env.fetchResult g.url).duration,
             queueJobId := jid : ImportResultEntry }) ∈
            (startImportStep env (logs, att, res) g).2.2 := by
        unfold startImportStep processFeed
        simp only [hs, if_false, henq]
        exact List.mem_append_right _ (List.mem_singleton.mpr rfl)
      exact ⟨_, startImportLoop_results_mem env tl _ _ hres, rfl, rfl⟩
    · exact ih _ g jid hmem hfetch henq

/-- Claim C6: when a feed's fetch succeeds but its batch submission to
the queue fails, the ImportRun created for that feed ends `failed` with a
non-empty error text, and the orchestrator still processes every
configured source: the summary has one result per feed, and every sibling
whose fetch and enqueue succeed contributes a successful entry. -/
theorem claim_C6 (env : ImportEnv) (st : OrchestratorState) (newId : String)
    (f : Feed) (e : String)
    (hrun : st.isRunning = false)
    (hf : f ∈ env.feeds)
    (hfetch : (env.fetchResult f.url).success = true)
    (henq : env.enqueueResult f.url = Except.error e)
    (he : e ≠ "") :
    (∃ log ∈ (startImport env st newId).1.logs,
        log.sourceFeed = f.url ∧ log.sourceName = f.name ∧
        log.status = "failed" ∧ log.error = e ∧ log.error ≠ "") ∧
    (∃ s, (startImport env st newId).2.2 = Except.ok s ∧
        s.results.length = env.feeds.length ∧
        ∀ g ∈ env.feeds, (env.fetchResult g.url).success = true →
          ∀ jid, env.enqueueResult g.url = Except.ok jid →
            ∃ r ∈ s.results, r.feed = g.name ∧ r.success = true) := by
  have hout : startImport env st newId =
      ({ isRunning := false, currentImportId := none,
         logs := (List.foldl (startImportStep env) (st.logs, [], []) env.feeds).1 },
       (List.foldl (startImportStep env) (st.logs, [], []) env.feeds).2.1,
       Except.ok { importId := newId, totalFeeds := env.feeds.length,
                   results := (List.foldl (startImportStep env) (st.logs, [], []) env.feeds).2.2 }) := by
    unfold startImport
    rw [hrun]
    rfl
  constructor
  · rw [hout]
    obtain ⟨log, hmem, h1, h2, h3, h4⟩ :=
      startImportLoop_failed_log env env.feeds (st.logs, [], []) f e hf hfetch henq
    exact ⟨log, hmem, h1, h2, h3, h4, h4 ▸ he⟩
  · rw [hout]
    refine ⟨_, rfl, ?_, ?_⟩
    · rw [startImportLoop_results_length env env.feeds (st.logs, [], [])]
      simp
    · intro g hg hgf jid hjid
      exact startImportLoop_ok_result env env.feeds (st.logs, [], []) g jid hg hgf hjid

/-- Witness for C6: two concrete feeds; the first feed's enqueue times
out, the second succeeds. -/
theorem claim_C6_witness :
    (∃ log ∈ (startImport
        ⟨[⟨"http://feed.example/bad", "Bad Feed"⟩, ⟨"http://feed.example/good", "Good Feed"⟩],
         fun _ => ⟨true, [], 0, 5, ""⟩,
         fun u => if u = "http://feed.example/bad"
           then Except.error "Queue add operation timed out after 20 seconds"
           else Except.ok "q1"⟩
        ⟨false, none, []⟩ "run1").1.logs,
        log.sourceFeed = "http://feed.example/bad" ∧ log.sourceName = "Bad Feed" ∧
        log.status = "failed" ∧
        log.error = "Queue add operation timed out after 20 seconds" ∧ log.error ≠ "") ∧
    (∃ s, (startImport
        ⟨[⟨"http://feed.example/bad", "Bad Feed"⟩, ⟨"http://feed.example/good", "Good Feed"⟩],
         fun _ => ⟨true, [], 0, 5, ""⟩,
         fun u => if u = "http://feed.example/bad"
           then Except.error "Queue add operation timed out after 20 seconds"
           else Except.ok "q1"⟩
        ⟨false, none, []⟩ "run1").2.2 = Except.ok s ∧
        s.results.length =
          ([⟨"http://feed.example/bad", "Bad Feed"⟩,
            ⟨"http://feed.example/good", "Good Feed"⟩] : List Feed).length ∧
        ∀ g ∈ ([⟨"http://feed.example/bad", "Bad Feed"⟩,
                ⟨"http://feed.example/good", "Good Feed"⟩] : List Feed),
          ((fun (_ : String) => (⟨true, [], 0, 5, ""⟩ : FetchedFeedResult)) g.url).success = true →
          ∀ jid, (fun u => if u = "http://feed.example/bad"
              then Except.error "Queue add operation timed out after 20 seconds"
              else Except.ok "q1") g.url = Except.ok jid →
            ∃ r ∈ s.results, r.feed = g.name ∧ r.success = true) :=
  claim_C6 _ _ "run1" ⟨"http://feed.example/bad", "Bad Feed"⟩
    "Queue add operation timed out after 20 seconds" rfl (by decide) rfl rfl (by decide)

/-- Case-insensitive prefix matching succeeds on a literal copy of the
pattern. -/
theorem startsWithCI_append_self (p r : List Char) : startsWithCI (p ++ r) p = true := by
  induction p with
  | nil => simp [startsWithCI]
  | cons c ps ih => simp [startsWithCI, ih]

/-- The opener pattern matches a literal `<tag>` and returns the rest. -/
theorem matchOpenTag_lit (tag rest : List Char) :
    matchOpenTag tag (openTagLit tag ++ rest) = some rest := by
  unfold matchOpenTag
  have h1 : openTagLit tag ++ rest = ('<' :: tag) ++ ('>' :: rest) := by
    simp [openTagLit]
  rw [h1, startsWithCI_append_self]
  have h2 : (('<' :: tag) ++ ('>' :: rest)).drop (tag.length + 1) = '>' :: rest := by
    have h3 := List.drop_left ('<' :: tag) ('>' :: rest)
    exact h3
  rw [if_pos rfl, h2]
  simp [List.dropWhile_cons]

/-- The closer search succeeds whenever a literal `</tag>` occurs. -/
theorem findCloseSplit_isSome (tag : List Char) :
    ∀ (mid post : List Char),
      (findCloseSplit tag (mid ++ closeTagLit tag ++ post)).isSome = true := by
  intro mid
  induction mid with
  | nil =>
    intro post
    have h1 : ([] : List Char) ++ closeTagLit tag ++ post =
        '<' :: (('/' :: tag ++ ['>']) ++ post) := by
      simp [closeTagLit]
    rw [h1]
    unfold findCloseSplit
    have h2 : startsWithCI ('<' :: (('/' :: tag ++ ['>']) ++ post)) (closeTagLit tag) = true := by
      have h3 : '<' :: (('/' :: tag ++ ['>']) ++ post) = closeTagLit tag ++ post := by
        simp [closeTagLit]
      rw [h3]
      exact startsWithCI_append_self _ _
    rw [if_pos h2]
    rfl
  | cons m mid' ih =>
    intro post
    have h1 : (m :: mid') ++ closeTagLit tag ++ post =
        m :: (mid' ++ closeTagLit tag ++ post) := by simp
    rw [h1]
    unfold findCloseSplit
    by_cases hs : startsWithCI (m :: (mid' ++ closeTagLit tag ++ post)) (closeTagLit tag) = true
    · rw [if_pos hs]; rfl
    · rw [if_neg hs]
      obtain ⟨pr, hpr⟩ := Option.isSome_iff_exists.mp (ih post)
      rw [hpr]
      rcases pr with ⟨body, rest⟩
      rfl

/-- Whenever a literal block occurs in the text and the fuel covers the
text, the block scanner finds at least one match. -/
theorem findBlocksF_ne_nil (tag : List Char) :
    ∀ (fuel : Nat) (pre mid post : List Char),
      (pre ++ openTagLit tag ++ mid ++ closeTagLit tag ++ post).length ≤ fuel →
      findBlocksF tag fuel (pre ++ openTagLit tag ++ mid ++ closeTagLit tag ++ post) ≠ [] := by
  intro fuel
  induction fuel with
  | zero =>
    intro pre mid post hlen
    exfalso
    simp [openTagLit, closeTagLit] at hlen
  | succ n ih =>
    intro pre mid post hlen
    cases pre with
    | nil =>
      have h1 : ([] : List Char) ++ openTagLit tag ++ mid ++ closeTagLit tag ++ post =
          '<' :: (tag ++ '>' :: (mid ++ closeTagLit tag ++ post)) := by
        simp [openTagLit]
      rw [h1]
      have h2 : '<' :: (tag ++ '>' :: (mid ++ closeTagLit tag ++ post)) =
          openTagLit tag ++ (mid ++ closeTagLit tag ++ post) := by
        simp [openTagLit]
      have hopen : matchOpenTag tag ('<' :: (tag ++ '>' :: (mid ++ closeTagLit tag ++ post))) =
          some (mid ++ closeTagLit tag ++ post) := by
        rw [h2]
        exact matchOpenTag_lit tag _
      obtain ⟨⟨body, rest⟩, hclose⟩ :=
        Option.isSome_iff_exists.mp (findCloseSplit_isSome tag mid post)
      simp only [findBlocksF, hopen, hclose]
      intro hcontra
      exact List.cons_ne_nil _ _ hcontra
    | cons p pre' =>
      have h1 : (p :: pre') ++ openTagLit tag ++ mid ++ closeTagLit tag ++ post =
          p :: (pre' ++ openTagLit tag ++ mid ++ closeTagLit tag ++ post) := by simp
      rw [h1]
      have hlen' : (pre' ++ openTagLit tag ++ mid ++ closeTagLit tag ++ post).length ≤ n := by
        rw [h1] at hlen
        simpa using hlen
      cases hopen : matchOpenTag tag
          (p :: (pre' ++ openTagLit tag ++ mid ++ closeTagLit tag ++ post)) with
      | none =>
        simp only [findBlocksF, hopen]
        exact ih pre' mid post hlen'
      | some afterOpen =>
        cases hclose : findCloseSplit tag afterOpen with
        | none =>
          simp only [findBlocksF, hopen, hclose]
          exact ih pre' mid post hlen'
        | some pr =>
          rcases pr with ⟨body, rest⟩
          simp only [findBlocksF, hopen, hclose]
          intro hcontra
          exact List.cons_ne_nil _ _ hcontra

/-- `findBlocks` finds a match whenever a literal block occurs. -/
theorem findBlocks_ne_nil (tag pre mid post : List Char) :
    findBlocks tag (pre ++ openTagLit tag ++ mid ++ closeTagLit tag ++ post) ≠ [] :=
  findBlocksF_ne_nil tag _ pre mid post (Nat.le_refl _)

/-- The fallback extractor yields a non-empty batch whenever the raw text
contains a literal `<item>`, `<entry>`, or `<job>` block. -/
theorem extractJobsFromRawXML_ne_nil (s : List Char) (feedUrl feedName : String)
    (fresh : Nat → FreshVals)
    (hocc :
      (∃ pre mid post, s =
        pre ++ openTagLit "item".data ++ mid ++ closeTagLit "item".data ++ post) ∨
      (∃ pre mid post, s =
        pre ++ openTagLit "entry".data ++ mid ++ closeTagLit "entry".data ++ post) ∨
      (∃ pre mid post, s =
        pre ++ openTagLit "job".data ++ mid ++ closeTagLit "job".data ++ post)) :
    extractJobsFromRawXML s feedUrl feedName fresh ≠ [] := by
  unfold extractJobsFromRawXML
  by_cases hi : (findBlocks "item".data s).isEmpty = false
  · rw [if_pos hi]
    rw [Ne, List.mapIdx_eq_nil_iff]
    rw [List.isEmpty_eq_false] at hi
    exact hi
  · rw [if_neg hi]
    have hinil : findBlocks "item".data s = [] := by
      rw [List.isEmpty_eq_false] at hi
      by_contra hne
      exact hi (by simpa using hne)
    by_cases he : (findBlocks "entry".data s).isEmpty = false
    · rw [if_pos he]
      rw [Ne, List.mapIdx_eq_nil_iff]
      rw [List.isEmpty_eq_false] at he
      exact he
    · rw [if_neg he]
      have henil : findBlocks "entry".data s = [] := by
        rw [List.isEmpty_eq_false] at he
        by_contra hne
        exact he (by simpa using hne)
      by_cases hj : (findBlocks "job".data s).isEmpty = false
      · rw [if_pos hj]
        rw [Ne, List.mapIdx_eq_nil_iff]
        rw [List.isEmpty_eq_false] at hj
        exact hj
      · exfalso
        have hjnil : findBlocks "job".data s = [] := by
          rw [List.isEmpty_eq_false] at hj
          by_contra hne
          exact hj (by simpa using hne)
        rcases hocc with ⟨pre, mid, post, rfl⟩ | ⟨pre, mid, post, rfl⟩ | ⟨pre, mid, post, rfl⟩
        · exact findBlocks_ne_nil _ pre mid post hinil
        · exact findBlocks_ne_nil _ pre mid post henil
        · exact findBlocks_ne_nil _ pre mid post hjnil

/-- One-step unfolding of the retry loop. -/
theorem fetchFeedGo_succ_eq (attempt : Nat → AttemptResult) (feedUrl feedName : String)
    (fresh : Nat → FreshVals) (duration : Nat) (remaining r : Nat)
    (xmlData : Option (List Char)) :
    fetchFeedGo attempt feedUrl feedName fresh duration (remaining + 1) r xmlData =
      match attempt r with
      | AttemptResult.parsed jobs =>
        (some { jobs := jobs, totalFetched := jobs.length, duration := duration,
                success := true }, [])
      | AttemptResult.httpError msg =>
        if remaining = 0 then
          (some (fallbackReturn xmlData feedUrl feedName fresh duration msg), [])
        else
          ((fetchFeedGo attempt feedUrl feedName fresh duration remaining (r + 1) xmlData).1,
           2 ^ (r + 1) * 1000 ::
             (fetchFeedGo attempt feedUrl feedName fresh duration remaining (r + 1) xmlData).2)
      | AttemptResult.nonStringPayload msg =>
        if remaining = 0 then
          (some (fallbackReturn none feedUrl feedName fresh duration msg), [])
        else
          ((fetchFeedGo attempt feedUrl feedName fresh duration remaining (r + 1) none).1,
           2 ^ (r + 1) * 1000 ::
             (fetchFeedGo attempt feedUrl feedName fresh duration remaining (r + 1) none).2)
      | AttemptResult.badPayload raw msg =>
        if remaining = 0 then
          (some (fallbackReturn (some raw) feedUrl feedName fresh duration msg), [])
        else
          ((fetchFeedGo attempt feedUrl feedName fresh duration remaining (r + 1) (some raw)).1,
           2 ^ (r + 1) * 1000 ::
             (fetchFeedGo attempt feedUrl feedName fresh duration remaining (r + 1) (some raw)).2) := by
  rfl

/-- The retry loop under all-failing attempts that keep a raw string
payload: the final return is the fallback over that payload with the last
error message, and the backoff sleeps are `2^retries` seconds. -/
theorem fetchFeedGo_all_badPayload (attempt : Nat → AttemptResult)
    (feedUrl feedName : String) (fresh : Nat → FreshVals) (duration : Nat)
    (s : List Char) (err : Nat → String) :
    ∀ (remaining r : Nat) (xmlData : Option (List Char)),
      (∀ i, r ≤ i → i ≤ r + remaining → attempt i = AttemptResult.badPayload s (err i)) →
      fetchFeedGo attempt feedUrl feedName fresh duration (remaining + 1) r xmlData =
        (some (fallbackReturn (some s) feedUrl feedName fresh duration (err (r + remaining))),
         (List.range remaining).map (fun i => 2 ^ (r + 1 + i) * 1000)) := by
  intro remaining
  induction remaining with
  | zero =>
    intro r xmlData h
    have hr := h r (Nat.le_refl r) (by omega)
    rw [fetchFeedGo_succ_eq, hr]
    rfl
  | succ n ih =>
    intro r xmlData h
    have hr := h r (Nat.le_refl r) (by omega)
    have hnext := ih (r + 1) (some s) (fun i h1 h2 => h i (by omega) (by omega))
    rw [fetchFeedGo_succ_eq, hr]
    dsimp only
    rw [if_neg (Nat.succ_ne_zero n), hnext]
    dsimp only
    refine congrArg₂ Prod.mk ?_ ?_
    · have : r + 1 + n = r + (n + 1) := by omega
      rw [this]
    · rw [List.range_succ_eq_map, List.map_cons, List.map_map]
      refine congrArg₂ List.cons (by norm_num) ?_
      refine List.map_congr_left ?_
      intro a _
      simp only [Function.comp, Nat.succ_eq_add_one]
      have : r + 1 + 1 + a = r + 1 + (a + 1) := by omega
      rw [this]

/-- The retry loop under all-failing attempts that never receive a string
body (non-2xx or transport failure): no fallback input exists. -/
theorem fetchFeedGo_all_httpError (attempt : Nat → AttemptResult)
    (feedUrl feedName : String) (fresh : Nat → FreshVals) (duration : Nat)
    (err : Nat → String) :
    ∀ (remaining r : Nat),
      (∀ i, r ≤ i → i ≤ r + remaining → attempt i = AttemptResult.httpError (err i)) →
      fetchFeedGo attempt feedUrl feedName fresh duration (remaining + 1) r none =
        (some (fallbackReturn none feedUrl feedName fresh duration (err (r + remaining))),
         (List.range remaining).map (fun i => 2 ^ (r + 1 + i) * 1000)) := by
  intro remaining
  induction remaining with
  | zero =>
    intro r h
    have hr := h r (Nat.le_refl r) (by omega)
    rw [fetchFeedGo_succ_eq, hr]
    rfl
  | succ n ih =>
    intro r h
    have hr := h r (Nat.le_refl r) (by omega)
    have hnext := ih (r + 1) (fun i h1 h2 => h i (by omega) (by omega))
    rw [fetchFeedGo_succ_eq, hr]
    dsimp only
    rw [if_neg (Nat.succ_ne_zero n), hnext]
    dsimp only
    refine congrArg₂ Prod.mk ?_ ?_
    · have : r + 1 + n = r + (n + 1) := by omega
      rw [this]
    · rw [List.range_succ_eq_map, List.map_cons, List.map_map]
      refine congrArg₂ List.cons (by norm_num) ?_
      refine List.map_congr_left ?_
      intro a _
      simp only [Function.comp, Nat.succ_eq_add_one]
      have : r + 1 + 1 + a = r + 1 + (a + 1) := by omega
      rw [this]

/-- A feed whose fetch fails contributes a failed result entry carrying
the fetch error, while the loop continues. -/
theorem startImportLoop_fetchfail_result (env : ImportEnv) :
    ∀ (feeds : List Feed) (s : List ImportLog × List String × List ImportResultEntry)
      (f : Feed), f ∈ feeds →
      (env.fetchResult f.url).success = false →
      ∃ r ∈ (List.foldl (startImportStep env) s feeds).2.2,
        r.feed = f.name ∧ r.success = false ∧ r.error = (env.fetchResult f.url).error := by
  intro feeds
  induction feeds with
  | nil => intro s f hf; exact absurd hf (List.not_mem_nil f)
  | cons hd tl ih =>
    intro s f hf hfetch
    rw [List.foldl_cons]
    rcases List.mem_cons.mp hf with rfl | hmem
    · rcases s with ⟨logs, att, res⟩
      have hres :
          ({ feed := f.name, success := false,
             error := (env.fetchResult f.url).error : ImportResultEntry }) ∈
            (startImportStep env (logs, att, res) f).2.2 := by
        unfold startImportStep processFeed
        simp only [hfetch, if_pos rfl]
        exact List.mem_append_right _ (List.mem_singleton.mpr rfl)
      exact ⟨_, startImportLoop_results_mem env tl _ _ hres, rfl, rfl, rfl⟩
    · exact ih _ f hmem hfetch

/-- Claim C8: with every attempt failing with a non-2xx status or
transport error, `fetchFeed` makes exactly `maxRetries` attempts
(sleeping `2^attempt` seconds between consecutive attempts), then returns
— rather than throws — a value carrying the last error message, the
elapsed duration and `success = false`; the orchestrator records such a
result as a whole-feed failure entry and still completes the run. -/
theorem claim_C8 (attempt : Nat → AttemptResult) (err : Nat → String)
    (feedUrl feedName : String) (fresh : Nat → FreshVals) (duration : Nat) (k : Nat)
    (hatt : ∀ i, i ≤ k → attempt i = AttemptResult.httpError (err i)) :
    (fetchFeedModel attempt feedUrl feedName fresh duration (k + 1)).1 =
      some { jobs := [], totalFetched := 0, duration := duration, success := false,
             error := err k, usedFallback := false } ∧
    (fetchFeedModel attempt feedUrl feedName fresh duration (k + 1)).2 =
      (List.range k).map (fun i => 2 ^ (i + 1) * 1000) ∧
    (∀ (env : ImportEnv) (st : OrchestratorState) (newId : String) (f : Feed) (d' : Nat),
      st.isRunning = false → f ∈ env.feeds →
      env.fetchResult f.url = ⟨false, [], 0, d', err k⟩ →
      (∃ r ∈ (List.foldl (startImportStep env) (st.logs, [], []) env.feeds).2.2,
        r.feed = f.name ∧ r.success = false ∧ r.error = err k) ∧
      (∃ smry, (startImport env st newId).2.2 = Except.ok smry)) := by
  have hloop := fetchFeedGo_all_httpError attempt feedUrl feedName fresh duration err k 0
    (fun i h1 h2 => hatt i (by omega))
  have hfb : fallbackReturn none feedUrl feedName fresh duration (err (0 + k)) =
      { jobs := [], totalFetched := 0, duration := duration, success := false,
        error := err k, usedFallback := false } := by
    simp only [fallbackReturn, Nat.zero_add]
    rfl
  refine ⟨?_, ?_, ?_⟩
  · unfold fetchFeedModel
    rw [hloop, hfb]
  · unfold fetchFeedModel
    rw [hloop]
    refine List.map_congr_left ?_
    intro a _
    have h0 : 0 + 1 + a = a + 1 := by omega
    rw [h0]
  · intro env st newId f d' hrun hf hres
    constructor
    · have hfe : (env.fetchResult f.url).success = false := by rw [hres]
      obtain ⟨r, hmem, h1, h2, h3⟩ :=
        startImportLoop_fetchfail_result env env.feeds (st.logs, [], []) f hf hfe
      refine ⟨r, hmem, h1, h2, ?_⟩
      rw [h3, hres]
    · refine
        ⟨{ importId := newId, totalFeeds := env.feeds.length,
           results := (List.foldl (startImportStep env) (st.logs, [], []) env.feeds).2.2 },
         ?_⟩
      unfold startImport
      rw [hrun]
      rfl

/-- Witness for C8: three attempts, all HTTP 500, retry maximum 3
(the default), at concrete parameters; the backoff sleeps are 2s then 4s,
and a concrete two-feed orchestrator records the failure and completes. -/
theorem claim_C8_witness :
    (fetchFeedModel (fun _ => AttemptResult.httpError "HTTP 500: Internal Server Error")
        "http://feed.example/bad" "Bad Feed" (fun _ => ⟨"t", "r"⟩) 90061 3).1 =
      some { jobs := [], totalFetched := 0, duration := 90061, success := false,
             error := "HTTP 500: Internal Server Error", usedFallback := false } ∧
    (fetchFeedModel (fun _ => AttemptResult.httpError "HTTP 500: Internal Server Error")
        "http://feed.example/bad" "Bad Feed" (fun _ => ⟨"t", "r"⟩) 90061 3).2 =
      (List.range 2).map (fun i => 2 ^ (i + 1) * 1000) ∧
    (∀ (env : ImportEnv) (st : OrchestratorState) (newId : String) (f : Feed) (d' : Nat),
      st.isRunning = false → f ∈ env.feeds →
      env.fetchResult f.url = ⟨false, [], 0, d', "HTTP 500: Internal Server Error"⟩ →
      (∃ r ∈ (List.foldl (startImportStep env) (st.logs, [], []) env.feeds).2.2,
        r.feed = f.name ∧ r.success = false ∧
        r.error = "HTTP 500: Internal Server Error") ∧
      (∃ smry, (startImport env st newId).2.2 = Except.ok smry)) :=
  claim_C8 (fun _ => AttemptResult.httpError "HTTP 500: Internal Server Error")
    (fun _ => "HTTP 500: Internal Server Error")
    "http://feed.example/bad" "Bad Feed" (fun _ => ⟨"t", "r"⟩) 90061 2
    (fun _ _ => rfl)

/-- Claim C7: a feed whose payload fails structured parsing on every
attempt but whose raw text contains a literal `<item>`/`<entry>`/`<job>`
block yields a non-empty fallback-extracted batch, the fetch result uses
that batch with `success = true` and `usedFallback = true`, and in
general the fallback return reports total failure exactly when the
fallback yields zero items. -/
theorem claim_C7 (s : List Char) (feedUrl feedName : String) (fresh : Nat → FreshVals)
    (attempt : Nat → AttemptResult) (err : Nat → String) (duration : Nat) (k : Nat)
    (hocc :
      (∃ pre mid post, s =
        pre ++ openTagLit "item".data ++ mid ++ closeTagLit "item".data ++ post) ∨
      (∃ pre mid post, s =
        pre ++ openTagLit "entry".data ++ mid ++ closeTagLit "entry".data ++ post) ∨
      (∃ pre mid post, s =
        pre ++ openTagLit "job".data ++ mid ++ closeTagLit "job".data ++ post))
    (hatt : ∀ i, i ≤ k → attempt i = AttemptResult.badPayload s (err i)) :
    extractJobsFromRawXML s feedUrl feedName fresh ≠ [] ∧
    (fetchFeedModel attempt feedUrl feedName fresh duration (k + 1)).1 =
      some (fallbackReturn (some s) feedUrl feedName fresh duration (err k)) ∧
    (fallbackReturn (some s) feedUrl feedName fresh duration (err k)).success = true ∧
    (fallbackReturn (some s) feedUrl feedName fresh duration (err k)).usedFallback = true ∧
    (fallbackReturn (some s) feedUrl feedName fresh duration (err k)).jobs =
      extractJobsFromRawXML s feedUrl feedName fresh ∧
    (∀ (xd : Option (List Char)) (d : Nat) (m : String),
      ((fallbackReturn xd feedUrl feedName fresh d m).success = false ↔
        (fallbackReturn xd feedUrl feedName fresh d m).jobs = [])) := by
  have hne := extractJobsFromRawXML_ne_nil s feedUrl feedName fresh hocc
  have hpos : 0 < (extractJobsFromRawXML s feedUrl feedName fresh).length :=
    List.length_pos.mpr hne
  have hloop := fetchFeedGo_all_badPayload attempt feedUrl feedName fresh duration s err k 0
    none (fun i h1 h2 => hatt i (by omega))
  refine ⟨hne, ?_, ?_, ?_, rfl, ?_⟩
  · unfold fetchFeedModel
    rw [hloop]
    simp
  · simp only [fallbackReturn]
    dsimp only
    simp [hpos]
  · simp only [fallbackReturn]
    dsimp only
    simp [hpos]
  · intro xd d m
    cases xd with
    | none => simp [fallbackReturn]
    | some t =>
      simp only [fallbackReturn]
      dsimp only
      simp [List.length_pos]

/-- Witness for C7: a concrete malformed feed whose raw text holds one
literal `<item>` block, with every attempt failing to parse. -/
theorem claim_C7_witness :
    extractJobsFromRawXML "x<item><title>Dev</title></item>y".data "u" "n"
      (fun _ => ⟨"t", "r"⟩) ≠ [] ∧
    (fetchFeedModel
        (fun _ => AttemptResult.badPayload "x<item><title>Dev</title></item>y".data
          "Failed to parse XML after cleaning attempts: boom")
        "u" "n" (fun _ => ⟨"t", "r"⟩) 12 3).1 =
      some (fallbackReturn (some "x<item><title>Dev</title></item>y".data) "u" "n"
        (fun _ => ⟨"t", "r"⟩) 12 "Failed to parse XML after cleaning attempts: boom") ∧
    (fallbackReturn (some "x<item><title>Dev</title></item>y".data) "u" "n"
      (fun _ => ⟨"t", "r"⟩) 12
      "Failed to parse XML after cleaning attempts: boom").success = true ∧
    (fallbackReturn (some "x<item><title>Dev</title></item>y".data) "u" "n"
      (fun _ => ⟨"t", "r"⟩) 12
      "Failed to parse XML after cleaning attempts: boom").usedFallback = true ∧
    (fallbackReturn (some "x<item><title>Dev</title></item>y".data) "u" "n"
      (fun _ => ⟨"t", "r"⟩) 12
      "Failed to parse XML after cleaning attempts: boom").jobs =
      extractJobsFromRawXML "x<item><title>Dev</title></item>y".data "u" "n"
        (fun _ => ⟨"t", "r"⟩) ∧
    (∀ (xd : Option (List Char)) (d : Nat) (m : String),
      ((fallbackReturn xd "u" "n" (fun _ => ⟨"t", "r"⟩) d m).success = false ↔
        (fallbackReturn xd "u" "n" (fun _ => ⟨"t", "r"⟩) d m).jobs = [])) :=
  claim_C7 "x<item><title>Dev</title></item>y".data "u" "n" (fun _ => ⟨"t", "r"⟩)
    (fun _ => AttemptResult.badPayload "x<item><title>Dev</title></item>y".data
      "Failed to parse XML after cleaning attempts: boom")
    (fun _ => "Failed to parse XML after cleaning attempts: boom") 12 2
    (Or.inl ⟨"x".data, "<title>Dev</title>".data, "y".data, by decide⟩)
    (fun _ _ => rfl)

/-- The merge branch leaves `originalGuid` untouched. -/
theorem updateExistingJob_originalGuid (ex : JobRecord) (item : JobItem) :
    (updateExistingJob ex item).originalGuid = ex.originalGuid := rfl

/-- The merge branch leaves `sourceFeed` untouched. -/
theorem updateExistingJob_sourceFeed (ex : JobRecord) (item : JobItem) :
    (updateExistingJob ex item).sourceFeed = ex.sourceFeed := rfl

/-- A record found by `findExistingJob` carries exactly the queried key. -/
theorem findExistingJob_some_key (store : List JobRecord) (guid url : String)
    (ex : JobRecord) (h : findExistingJob store guid url = some ex) :
    ex.originalGuid = guid ∧ ex.sourceFeed = url := by
  have hp := List.find?_some h
  simp only [Bool.and_eq_true, beq_iff_eq] at hp
  exact hp

/-- Replacing a stored record keeps the store size. -/
theorem replaceFirstJob_length (store : List JobRecord) (guid url : String) (r : JobRecord) :
    (replaceFirstJob store guid url r).length = store.length := by
  induction store with
  | nil => rfl
  | cons j rest ih =>
    unfold replaceFirstJob
    by_cases hj : (j.originalGuid == guid && j.sourceFeed == url) = true
    · simp [hj]
    · simp [hj, ih]

/-- `countKey` unfolded over a cons cell. -/
theorem countKey_cons (j : JobRecord) (rest : List JobRecord) (g u : String) :
    countKey (j :: rest) g u =
      (if (j.originalGuid == g && j.sourceFeed == u) = true then 1 else 0) + countKey rest g u := by
  unfold countKey
  rw [List.filter_cons]
  by_cases hj : (j.originalGuid == g && j.sourceFeed == u) = true
  · simp [hj, Nat.add_comm]
  · simp [hj]

/-- `countKey` over appending a single record. -/
theorem countKey_append_single (store : List JobRecord) (r : JobRecord) (g u : String) :
    countKey (store ++ [r]) g u =
      countKey store g u + (if (r.originalGuid == g && r.sourceFeed == u) = true then 1 else 0) := by
  unfold countKey
  rw [List.filter_append, List.length_append]
  by_cases hr : (r.originalGuid == g && r.sourceFeed == u) = true
  · simp [List.filter_cons, hr]
  · simp [List.filter_cons, hr]

/-- An absent key has zero stored records. -/
theorem findExistingJob_none_countKey (store : List JobRecord) (guid url : String)
    (h : findExistingJob store guid url = none) : countKey store guid url = 0 := by
  unfold findExistingJob at h
  rw [List.find?_eq_none] at h
  unfold countKey
  rw [List.length_eq_zero, List.filter_eq_nil_iff]
  exact fun j hj => h j hj

/-- After replacing the found record by one carrying the same key, lookup
returns the replacement. -/
theorem replaceFirstJob_find (store : List JobRecord) (guid url : String)
    (r ex : JobRecord) (h : findExistingJob store guid url = some ex)
    (hr1 : r.originalGuid = guid) (hr2 : r.sourceFeed = url) :
    findExistingJob (replaceFirstJob store guid url r) guid url = some r := by
  induction store with
  | nil => simp [findExistingJob] at h
  | cons j rest ih =>
    unfold replaceFirstJob
    by_cases hj : (j.originalGuid == guid && j.sourceFeed == url) = true
    · rw [if_pos hj]
      unfold findExistingJob
      exact List.find?_cons_of_pos _ (by simp [hr1, hr2])
    · rw [if_neg hj]
      unfold findExistingJob at h ⊢
      rw [List.find?_cons_of_neg rest hj] at h
      rw [List.find?_cons_of_neg (replaceFirstJob rest guid url r) hj]
      exact ih h

/-- Replacing a record by one with the same (guid, sourceFeed) key leaves
every key count unchanged: the mutation never duplicates a record. -/
theorem replaceFirstJob_countKey (store : List JobRecord) (guid url : String)
    (r : JobRecord) (hr1 : r.originalGuid = guid) (hr2 : r.sourceFeed = url) :
    ∀ g u, countKey (replaceFirstJob store guid url r) g u = countKey store g u := by
  induction store with
  | nil => intro g u; rfl
  | cons j rest ih =>
    intro g u
    unfold replaceFirstJob
    by_cases hj : (j.originalGuid == guid && j.sourceFeed == url) = true
    · rw [if_pos hj]
      have hj1 : j.originalGuid = guid := by
        simp only [Bool.and_eq_true, beq_iff_eq] at hj; exact hj.1
      have hj2 : j.sourceFeed = url := by
        simp only [Bool.and_eq_true, beq_iff_eq] at hj; exact hj.2
      rw [countKey_cons, countKey_cons, hr1, hr2, hj1, hj2]
    · rw [if_neg hj]
      rw [countKey_cons, countKey_cons, ih g u]

/-- When the key is absent, appending the fresh record makes it the one
`findExistingJob` finds. -/
theorem findExistingJob_append (store : List JobRecord) (guid url : String)
    (r : JobRecord) (h : findExistingJob store guid url = none)
    (hr1 : r.originalGuid = guid) (hr2 : r.sourceFeed = url) :
    findExistingJob (store ++ [r]) guid url = some r := by
  induction store with
  | nil =>
    unfold findExistingJob
    exact List.find?_cons_of_pos _ (by simp [hr1, hr2])
  | cons j rest ih =>
    unfold findExistingJob at h ⊢
    by_cases hj : (j.originalGuid == guid && j.sourceFeed == url) = true
    · rw [List.find?_cons_of_pos rest hj] at h
      exact absurd h (by simp)
    · rw [List.find?_cons_of_neg rest hj] at h
      rw [List.cons_append, List.find?_cons_of_neg (rest ++ [r]) hj]
      exact ih h

/-- Claim C1: the worker's per-item upsert.  (a) If (guid, sourceFeed)
already identifies a stored record, that record is mutated in place — the
merge keeps `originalGuid` and `sourceFeed`, the store size is unchanged,
every key count is unchanged (no duplicate is ever created) and the run's
`updated` count is incremented instead of `newInserted`.  (b) If the key
is absent, a fresh record with status `active` is appended and
`newInserted` is incremented; processing the identical item a second time
then takes the update path, leaving exactly one record with that key. -/
theorem claim_C1 (feedUrl feedName : String) (store : List JobRecord) (item : JobItem) :
    (∀ ex, findExistingJob store item.guid feedUrl = some ex →
      (processJobItem feedUrl feedName ⟨store, 0, 0, 0, []⟩ item none).updatedJobs = 1 ∧
      (processJobItem feedUrl feedName ⟨store, 0, 0, 0, []⟩ item none).newJobs = 0 ∧
      (processJobItem feedUrl feedName ⟨store, 0, 0, 0, []⟩ item none).store.length =
        store.length ∧
      findExistingJob
        (processJobItem feedUrl feedName ⟨store, 0, 0, 0, []⟩ item none).store
        item.guid feedUrl = some (updateExistingJob ex item) ∧
      (updateExistingJob ex item).originalGuid = ex.originalGuid ∧
      (updateExistingJob ex item).sourceFeed = ex.sourceFeed ∧
      (∀ g u, countKey
        (processJobItem feedUrl feedName ⟨store, 0, 0, 0, []⟩ item none).store g u =
        countKey store g u)) ∧
    (findExistingJob store item.guid feedUrl = none →
      (processJobItem feedUrl feedName ⟨store, 0, 0, 0, []⟩ item none).newJobs = 1 ∧
      (processJobItem feedUrl feedName ⟨store, 0, 0, 0, []⟩ item none).updatedJobs = 0 ∧
      (processJobItem feedUrl feedName ⟨store, 0, 0, 0, []⟩ item none).store =
        store ++ [newJobRecord item feedUrl feedName] ∧
      (newJobRecord item feedUrl feedName).status = "active" ∧
      countKey
        (processJobItem feedUrl feedName ⟨store, 0, 0, 0, []⟩ item none).store
        item.guid feedUrl = 1 ∧
      (processJobItem feedUrl feedName
        ⟨(processJobItem feedUrl feedName ⟨store, 0, 0, 0, []⟩ item none).store,
          0, 0, 0, []⟩ item none).updatedJobs = 1 ∧
      (processJobItem feedUrl feedName
        ⟨(processJobItem feedUrl feedName ⟨store, 0, 0, 0, []⟩ item none).store,
          0, 0, 0, []⟩ item none).newJobs = 0 ∧
      countKey
        (processJobItem feedUrl feedName
          ⟨(processJobItem feedUrl feedName ⟨store, 0, 0, 0, []⟩ item none).store,
            0, 0, 0, []⟩ item none).store item.guid feedUrl = 1) := by
  constructor
  · intro ex hex
    obtain ⟨hk1, hk2⟩ := findExistingJob_some_key store item.guid feedUrl ex hex
    have hstep : processJobItem feedUrl feedName ⟨store, 0, 0, 0, []⟩ item none =
        ⟨replaceFirstJob store item.guid feedUrl (updateExistingJob ex item), 1, 0, 1, []⟩ := by
      unfold processJobItem
      rw [hex]
    rw [hstep]
    have hu1 : (updateExistingJob ex item).originalGuid = item.guid := by
      rw [updateExistingJob_originalGuid, hk1]
    have hu2 : (updateExistingJob ex item).sourceFeed = feedUrl := by
      rw [updateExistingJob_sourceFeed, hk2]
    refine ⟨rfl, rfl, replaceFirstJob_length _ _ _ _,
      replaceFirstJob_find store item.guid feedUrl _ ex hex hu1 hu2, rfl, rfl, ?_⟩
    exact replaceFirstJob_countKey store item.guid feedUrl _ hu1 hu2
  · intro hnone
    have hstep : processJobItem feedUrl feedName ⟨store, 0, 0, 0, []⟩ item none =
        ⟨store ++ [newJobRecord item feedUrl feedName], 1, 1, 0, []⟩ := by
      unfold processJobItem
      rw [hnone]
    have hcount0 := findExistingJob_none_countKey store item.guid feedUrl hnone
    have hcount1 : countKey (store ++ [newJobRecord item feedUrl feedName]) item.guid feedUrl
        = 1 := by
      rw [countKey_append_single, hcount0]
      simp [newJobRecord]
    have hfind2 : findExistingJob (store ++ [newJobRecord item feedUrl feedName])
        item.guid feedUrl = some (newJobRecord item feedUrl feedName) :=
      findExistingJob_append store item.guid feedUrl _ hnone rfl rfl
    have hstep2 : processJobItem feedUrl feedName
        ⟨store ++ [newJobRecord item feedUrl feedName], 0, 0, 0, []⟩ item none =
        ⟨replaceFirstJob (store ++ [newJobRecord item feedUrl feedName]) item.guid feedUrl
          (updateExistingJob (newJobRecord item feedUrl feedName) item), 1, 0, 1, []⟩ := by
      unfold processJobItem
      rw [hfind2]
    rw [hstep]
    refine ⟨rfl, rfl, rfl, rfl, hcount1, ?_, ?_, ?_⟩
    · rw [hstep2]
    · rw [hstep2]
    · rw [hstep2]
      have := replaceFirstJob_countKey (store ++ [newJobRecord item feedUrl feedName])
        item.guid feedUrl (updateExistingJob (newJobRecord item feedUrl feedName) item)
        (by rw [updateExistingJob_originalGuid]; rfl)
        (by rw [updateExistingJob_sourceFeed]; rfl) item.guid feedUrl
      rw [this, hcount1]

/-- Witness for C1 (absent-key branch, then re-ingestion of the identical
item) at a concrete item and the empty store. -/
theorem claim_C1_witness :
    (processJobItem "http://feed.example/a" "Feed A" ⟨[], 0, 0, 0, []⟩
      ⟨"g1", "T", "C", "L", "D", "", "", "", "", "", "", "", "", ""⟩ none).newJobs = 1 ∧
    (processJobItem "http://feed.example/a" "Feed A" ⟨[], 0, 0, 0, []⟩
      ⟨"g1", "T", "C", "L", "D", "", "", "", "", "", "", "", "", ""⟩ none).updatedJobs = 0 ∧
    (processJobItem "http://feed.example/a" "Feed A" ⟨[], 0, 0, 0, []⟩
      ⟨"g1", "T", "C", "L", "D", "", "", "", "", "", "", "", "", ""⟩ none).store =
      [] ++ [newJobRecord ⟨"g1", "T", "C", "L", "D", "", "", "", "", "", "", "", "", ""⟩
        "http://feed.example/a" "Feed A"] ∧
    (newJobRecord ⟨"g1", "T", "C", "L", "D", "", "", "", "", "", "", "", "", ""⟩
      "http://feed.example/a" "Feed A").status = "active" ∧
    countKey (processJobItem "http://feed.example/a" "Feed A" ⟨[], 0, 0, 0, []⟩
      ⟨"g1", "T", "C", "L", "D", "", "", "", "", "", "", "", "", ""⟩ none).store
      "g1" "http://feed.example/a" = 1 ∧
    (processJobItem "http://feed.example/a" "Feed A"
      ⟨(processJobItem "http://feed.example/a" "Feed A" ⟨[], 0, 0, 0, []⟩
        ⟨"g1", "T", "C", "L", "D", "", "", "", "", "", "", "", "", ""⟩ none).store,
        0, 0, 0, []⟩
      ⟨"g1", "T", "C", "L", "D", "", "", "", "", "", "", "", "", ""⟩ none).updatedJobs = 1 ∧
    (processJobItem "http://feed.example/a" "Feed A"
      ⟨(processJobItem "http://feed.example/a" "Feed A" ⟨[], 0, 0, 0, []⟩
        ⟨"g1", "T", "C", "L", "D", "", "", "", "", "", "", "", "", ""⟩ none).store,
        0, 0, 0, []⟩
      ⟨"g1", "T", "C", "L", "D", "", "", "", "", "", "", "", "", ""⟩ none).newJobs = 0 ∧
    countKey (processJobItem "http://feed.example/a" "Feed A"
      ⟨(processJobItem "http://feed.example/a" "Feed A" ⟨[], 0, 0, 0, []⟩
        ⟨"g1", "T", "C", "L", "D", "", "", "", "", "", "", "", "", ""⟩ none).store,
        0, 0, 0, []⟩
      ⟨"g1", "T", "C", "L", "D", "", "", "", "", "", "", "", "", ""⟩ none).store
      "g1" "http://feed.example/a" = 1 :=
  (claim_C1 "http://feed.example/a" "Feed A" []
    ⟨"g1", "T", "C", "L", "D", "", "", "", "", "", "", "", "", ""⟩).2 rfl

/-- Each loop iteration accounts for exactly one item: a successful save
bumps `processed` together with exactly one of `newJobs`/`updatedJobs`,
and a failure appends exactly one failed entry. -/
theorem processJobItem_counts (feedUrl feedName : String) (acc : WorkerAcc)
    (item : JobItem) (saveOk : Option String) :
    (processJobItem feedUrl feedName acc item saveOk).processed +
      (processJobItem feedUrl feedName acc item saveOk).failedJobs.length =
      acc.processed + acc.failedJobs.length + 1 ∧
    (processJobItem feedUrl feedName acc item saveOk).processed +
      acc.newJobs + acc.updatedJobs =
      acc.processed + (processJobItem feedUrl feedName acc item saveOk).newJobs +
        (processJobItem feedUrl feedName acc item saveOk).updatedJobs := by
  unfold processJobItem
  cases saveOk with
  | some e => simp; omega
  | none =>
    cases findExistingJob acc.store item.guid feedUrl with
    | some ex => simp; omega
    | none => simp; omega

/-- Count bookkeeping across the whole batch fold. -/
theorem workerFold_counts (feedUrl feedName : String) :
    ∀ (jobData : List (JobItem × Option String)) (acc : WorkerAcc),
      (jobData.foldl (fun a it => processJobItem feedUrl feedName a it.1 it.2) acc).processed +
        (jobData.foldl (fun a it => processJobItem feedUrl feedName a it.1 it.2) acc).failedJobs.length =
        acc.processed + acc.failedJobs.length + jobData.length ∧
      (jobData.foldl (fun a it => processJobItem feedUrl feedName a it.1 it.2) acc).processed +
        acc.newJobs + acc.updatedJobs =
        acc.processed +
          (jobData.foldl (fun a it => processJobItem feedUrl feedName a it.1 it.2) acc).newJobs +
          (jobData.foldl (fun a it => processJobItem feedUrl feedName a it.1 it.2) acc).updatedJobs := by
  intro jobData
  induction jobData with
  | nil => intro acc; simp
  | cons hd tl ih =>
    intro acc
    rw [List.foldl_cons]
    obtain ⟨h1, h2⟩ := processJobItem_counts feedUrl feedName acc hd.1 hd.2
    obtain ⟨h3, h4⟩ := ih (processJobItem feedUrl feedName acc hd.1 hd.2)
    constructor
    · rw [h3]
      simp [List.length_cons]
      omega
    · omega

/-- Claim C5: the ImportLog written by the worker at batch completion
satisfies the count invariants: `totalImported = newJobs + updatedJobs`,
and `totalImported + failedJobs.length ≤ totalFetched` (in fact the sum
equals `totalFetched`, which was recorded at run creation as the batch
size); failed items are only appended to `failedJobs`, never counted in
`totalImported`. -/
theorem claim_C5 (feedUrl feedName : String) (store : List JobRecord)
    (jobData : List (JobItem × Option String)) (log : ImportLog)
    (hfetched : log.totalFetched = jobData.length) :
    (workerFinishLog log (workerProcessBatch feedUrl feedName store jobData)).totalImported =
      (workerFinishLog log (workerProcessBatch feedUrl feedName store jobData)).newJobs +
        (workerFinishLog log (workerProcessBatch feedUrl feedName store jobData)).updatedJobs ∧
    (workerFinishLog log (workerProcessBatch feedUrl feedName store jobData)).totalImported +
      (workerFinishLog log (workerProcessBatch feedUrl feedName store jobData)).failedJobs.length =
      (workerFinishLog log (workerProcessBatch feedUrl feedName store jobData)).totalFetched ∧
    (workerFinishLog log (workerProcessBatch feedUrl feedName store jobData)).totalImported +
      (workerFinishLog log (workerProcessBatch feedUrl feedName store jobData)).failedJobs.length ≤
      (workerFinishLog log (workerProcessBatch feedUrl feedName store jobData)).totalFetched := by
  obtain ⟨h1, h2⟩ := workerFold_counts feedUrl feedName jobData ⟨store, 0, 0, 0, []⟩
  simp only [workerFinishLog, workerProcessBatch]
  simp at h1 h2
  refine ⟨?_, ?_, ?_⟩ <;> omega

/-- Witness for C5: a two-item batch over the empty store in which the
second item's save fails. -/
theorem claim_C5_witness :
    (workerFinishLog
      ⟨"http://feed.example/a", "Feed A", 2, 0, 0, 0, [], "running", "", ""⟩
      (workerProcessBatch "http://feed.example/a" "Feed A" []
        [(⟨"g1", "T", "C", "L", "D", "", "", "", "", "", "", "", "", ""⟩, none),
         (⟨"g2", "T2", "C2", "L2", "D2", "", "", "", "", "", "", "", "", ""⟩,
          some "ValidationError")])).totalImported =
      (workerFinishLog
        ⟨"http://feed.example/a", "Feed A", 2, 0, 0, 0, [], "running", "", ""⟩
        (workerProcessBatch "http://feed.example/a" "Feed A" []
          [(⟨"g1", "T", "C", "L", "D", "", "", "", "", "", "", "", "", ""⟩, none),
           (⟨"g2", "T2", "C2", "L2", "D2", "", "", "", "", "", "", "", "", ""⟩,
            some "ValidationError")])).newJobs +
      (workerFinishLog
        ⟨"http://feed.example/a", "Feed A", 2, 0, 0, 0, [], "running", "", ""⟩
        (workerProcessBatch "http://feed.example/a" "Feed A" []
          [(⟨"g1", "T", "C", "L", "D", "", "", "", "", "", "", "", "", ""⟩, none),
           (⟨"g2", "T2", "C2", "L2", "D2", "", "", "", "", "", "", "", "", ""⟩,
            some "ValidationError")])).updatedJobs ∧
    (workerFinishLog
      ⟨"http://feed.example/a", "Feed A", 2, 0, 0, 0, [], "running", "", ""⟩
      (workerProcessBatch "http://feed.example/a" "Feed A" []
        [(⟨"g1", "T", "C", "L", "D", "", "", "", "", "", "", "", "", ""⟩, none),
         (⟨"g2", "T2", "C2", "L2", "D2", "", "", "", "", "", "", "", "", ""⟩,
          some "ValidationError")])).totalImported +
      (workerFinishLog
        ⟨"http://feed.example/a", "Feed A", 2, 0, 0, 0, [], "running", "", ""⟩
        (workerProcessBatch "http://feed.example/a" "Feed A" []
          [(⟨"g1", "T", "C", "L", "D", "", "", "", "", "", "", "", "", ""⟩, none),
           (⟨"g2", "T2", "C2", "L2", "D2", "", "", "", "", "", "", "", "", ""⟩,
            some "ValidationError")])).failedJobs.length =
      (workerFinishLog
        ⟨"http://feed.example/a", "Feed A", 2, 0, 0, 0, [], "running", "", ""⟩
        (workerProcessBatch "http://feed.example/a" "Feed A" []
          [(⟨"g1", "T", "C", "L", "D", "", "", "", "", "", "", "", "", ""⟩, none),
           (⟨"g2", "T2", "C2", "L2", "D2", "", "", "", "", "", "", "", "", ""⟩,
            some "ValidationError")])).totalFetched ∧
    (workerFinishLog
      ⟨"http://feed.example/a", "Feed A", 2, 0, 0, 0, [], "running", "", ""⟩
      (workerProcessBatch "http://feed.example/a" "Feed A" []
        [(⟨"g1", "T", "C", "L", "D", "", "", "", "", "", "", "", "", ""⟩, none),
         (⟨"g2", "T2", "C2", "L2", "D2", "", "", "", "", "", "", "", "", ""⟩,
          some "ValidationError")])).totalImported +
      (workerFinishLog
        ⟨"http://feed.example/a", "Feed A", 2, 0, 0, 0, [], "running", "", ""⟩
        (workerProcessBatch "http://feed.example/a" "Feed A" []
          [(⟨"g1", "T", "C", "L", "D", "", "", "", "", "", "", "", "", ""⟩, none),
           (⟨"g2", "T2", "C2", "L2", "D2", "", "", "", "", "", "", "", "", ""⟩,
            some "ValidationError")])).failedJobs.length ≤
      (workerFinishLog
        ⟨"http://feed.example/a", "Feed A", 2, 0, 0, 0, [], "running", "", ""⟩
        (workerProcessBatch "http://feed.example/a" "Feed A" []
          [(⟨"g1", "T", "C", "L", "D", "", "", "", "", "", "", "", "", ""⟩, none),
           (⟨"g2", "T2", "C2", "L2", "D2", "", "", "", "", "", "", "", "", ""⟩,
            some "ValidationError")])).totalFetched :=
  claim_C5 "http://feed.example/a" "Feed A" []
    [(⟨"g1", "T", "C", "L", "D", "", "", "", "", "", "", "", "", ""⟩, none),
     (⟨"g2", "T2", "C2", "L2", "D2", "", "", "", "", "", "", "", "", ""⟩,
      some "ValidationError")]
    ⟨"http://feed.example/a", "Feed A", 2, 0, 0, 0, [], "running", "", ""⟩ rfl

/-- Claim C2 (counterexample): the spec claims the keyword groups are
checked in priority order senior → executive → entry → mid, so that
`"experienced director"` (an executive keyword plus a mid keyword, no
senior keyword) would yield `"executive"`.  The source checks the
mid group second, so the result is `"mid"`, refuting the claim at this
concrete input. -/
theorem claim_C2_counterexample :
    includesKw (textOf "Experienced Director" "") "director" = true ∧
    includesKw (textOf "Experienced Director" "") "experienced" = true ∧
    (includesKw (textOf "Experienced Director" "") "senior"
      || includesKw (textOf "Experienced Director" "") "lead"
      || includesKw (textOf "Experienced Director" "") "principal") = false ∧
    detectExperienceLevel "Experienced Director" "" = "mid" ∧
    detectExperienceLevel "Experienced Director" "" ≠ "executive" := by
  refine ⟨by decide, by decide, by decide, by decide, by decide⟩

/-- Claim C2 (amended): the experience-level heuristic checks the
case-insensitive concatenation of title and description against the
keyword groups in the priority order senior/lead/principal → `senior`,
then mid/intermediate/experienced → `mid`, then
entry/junior/graduate/intern → `entry`, then executive/director/vp/chief
→ `executive`, defaulting to `mid`; consequently, for any text containing
a mid keyword but no senior keyword — in particular one that also
contains an executive keyword, such as "experienced director" — the
result is `mid`, not `executive`. -/
theorem claim_C2 (title description : String)
    (hmid : (includesKw (textOf title description) "mid"
      || includesKw (textOf title description) "intermediate"
      || includesKw (textOf title description) "experienced") = true)
    (hsen : (includesKw (textOf title description) "senior"
      || includesKw (textOf title description) "lead"
      || includesKw (textOf title description) "principal") = false) :
    detectExperienceLevel title description = "mid" := by
  unfold detectExperienceLevel
  rw [hsen, hmid]
  rfl

/-- Witness for C2's amended theorem at the concrete input
"Experienced Director" (contains the executive keyword "director" and the
mid keyword "experienced", no senior keyword). -/
theorem claim_C2_witness :
    detectExperienceLevel "Experienced Director" "" = "mid" :=
  claim_C2 "Experienced Director" "" (by decide) (by decide)

/-! ### cleanXML: character-class facts -/

/-- The JS `\s` and `\w` classes are disjoint. -/
theorem space_not_word {c : Char} (h : isSpaceChar c = true) : isWordChar c = false := by
  have hm : c ∈ spaceChars := by
    unfold isSpaceChar List.contains at h
    exact List.elem_iff.mp h
  fin_cases hm <;> decide

theorem word_not_space {c : Char} (h : isWordChar c = true) : isSpaceChar c = false := by
  cases hs : isSpaceChar c with
  | false => rfl
  | true => rw [space_not_word hs] at h; exact absurd h (by decide)

theorem quote_not_space {c : Char} (h : isQuoteChar c = true) : isSpaceChar c = false := by
  unfold isQuoteChar at h
  simp only [Bool.or_eq_true, beq_iff_eq] at h
  rcases h with rfl | rfl <;> decide

theorem quote_not_word {c : Char} (h : isQuoteChar c = true) : isWordChar c = false := by
  unfold isQuoteChar at h
  simp only [Bool.or_eq_true, beq_iff_eq] at h
  rcases h with rfl | rfl <;> decide

theorem mem_of_getLast?_eq {l : List Char} {c : Char} (h : l.getLast? = some c) : c ∈ l := by
  cases l with
  | nil => simp at h
  | cons a t =>
    have hne : a :: t ≠ ([] : List Char) := by simp
    rw [List.getLast?_eq_getLast _ hne] at h
    have hmem := List.getLast_mem hne
    have hc : (a :: t).getLast hne = c := by
      injection h
    rw [hc] at hmem
    exact hmem

/-! ### cleanXML: the attribute pattern -/

/-- Elimination form of a successful attribute-pattern match: the
captured word run, the `=`, and the remainder (full whitespace run when
the lookahead succeeds greedily, or all but its last character when the
engine backtracks before a quote). -/
theorem tryAttrMatch_some_elim {l w₀ r : List Char}
    (h : tryAttrMatch l = some (w₀, r)) :
    w₀ = l.takeWhile isWordChar ∧ w₀ ≠ [] ∧
    ∃ l3, (l.dropWhile isWordChar).dropWhile isSpaceChar = '=' :: l3 ∧
      ((headIsQuote (l3.dropWhile isSpaceChar) = false ∧ r = l3.dropWhile isSpaceChar) ∨
       (∃ c, (l3.takeWhile isSpaceChar).getLast? = some c ∧ isSpaceChar c = true ∧
          r = c :: l3.dropWhile isSpaceChar)) := by
  unfold tryAttrMatch at h
  by_cases hw : (l.takeWhile isWordChar).isEmpty
  · rw [if_pos hw] at h
    exact absurd h (by simp)
  · rw [if_neg hw] at h
    have hw' : l.takeWhile isWordChar ≠ [] := by
      simpa using hw
    split at h
    next heq => exact absurd h (by simp)
    next a l3 heq =>
      by_cases ha : a = '='
      · subst ha
        rw [if_pos rfl] at h
        by_cases hq : headIsQuote (l3.dropWhile isSpaceChar) = false
        · rw [if_pos hq] at h
          simp only [Option.some.injEq, Prod.mk.injEq] at h
          exact ⟨h.1.symm, h.1 ▸ hw', l3, heq, Or.inl ⟨hq, h.2.symm⟩⟩
        · rw [if_neg hq] at h
          split at h
          next c hg =>
            simp only [Option.some.injEq, Prod.mk.injEq] at h
            have hc : isSpaceChar c = true :=
              List.mem_takeWhile_imp (mem_of_getLast?_eq hg)
            exact ⟨h.1.symm, h.1 ▸ hw', l3, heq, Or.inr ⟨c, hg, hc, h.2.symm⟩⟩
          next => exact absurd h (by simp)
      · rw [if_neg ha] at h
        exact absurd h (by simp)

/-- A successful match consumes at least the word run and the `=`. -/
theorem tryAttrMatch_rest_length {l w₀ r : List Char}
    (h : tryAttrMatch l = some (w₀, r)) : r.length < l.length := by
  obtain ⟨hw, hne, l3, heq, hcase⟩ := tryAttrMatch_some_elim h
  have hwne : l.takeWhile isWordChar ≠ [] := hw ▸ hne
  have hwpos : 0 < (l.takeWhile isWordChar).length := List.length_pos.mpr hwne
  have e1 : (l.takeWhile isWordChar).length + (l.dropWhile isWordChar).length = l.length := by
    have h1 := congrArg List.length (List.takeWhile_append_dropWhile isWordChar l)
    rw [List.length_append] at h1
    exact h1
  have e2 : ((l.dropWhile isWordChar).takeWhile isSpaceChar).length + (l3.length + 1) =
      (l.dropWhile isWordChar).length := by
    have h2 := List.takeWhile_append_dropWhile isSpaceChar (l.dropWhile isWordChar)
    rw [heq] at h2
    have h3 := congrArg List.length h2
    rw [List.length_append, List.length_cons] at h3
    exact h3
  have e3 : (l3.takeWhile isSpaceChar).length + (l3.dropWhile isSpaceChar).length =
      l3.length := by
    have h1 := congrArg List.length (List.takeWhile_append_dropWhile isSpaceChar l3)
    rw [List.length_append] at h1
    exact h1
  rcases hcase with ⟨_, rfl⟩ | ⟨c, hg, _, rfl⟩
  · omega
  · have hs2 : l3.takeWhile isSpaceChar ≠ [] := by
      intro hnil
      rw [hnil] at hg
      exact absurd hg (by simp)
    have := List.length_pos.mpr hs2
    simp only [List.length_cons]
    omega

/-- Introduction form: at a word character followed by whitespace, an
`=`, and anything not starting with a quote, the pattern matches. -/
theorem tryAttrMatch_isSome (wc : Char) (s y : List Char)
    (hwc : isWordChar wc = true) (hs : ∀ c ∈ s, isSpaceChar c = true)
    (hy : headIsQuote y = false) :
    (tryAttrMatch (wc :: (s ++ '=' :: y))).isSome = true := by
  unfold tryAttrMatch
  have htw : ¬ ((wc :: (s ++ '=' :: y)).takeWhile isWordChar).isEmpty = true := by
    rw [List.takeWhile_cons_of_pos hwc]
    simp
  rw [if_neg htw]
  have hd1 : (wc :: (s ++ '=' :: y)).dropWhile isWordChar = s ++ '=' :: y := by
    rw [List.dropWhile_cons_of_pos hwc]
    cases s with
    | nil =>
      simp only [List.nil_append]
      rw [List.dropWhile_cons_of_neg (by decide)]
    | cons c0 s' =>
      rw [List.cons_append, List.dropWhile_cons_of_neg]
      rw [space_not_word (hs c0 (List.mem_cons_self c0 s'))]
      simp
  rw [hd1]
  have hd2 : (s ++ '=' :: y).dropWhile isSpaceChar = '=' :: y := by
    rw [List.dropWhile_append_of_pos hs]
    rw [List.dropWhile_cons_of_neg (by decide)]
  rw [hd2]
  dsimp only
  rw [if_pos rfl]
  by_cases hq : headIsQuote (y.dropWhile isSpaceChar) = false
  · rw [if_pos hq]
    rfl
  · rw [if_neg hq]
    cases y with
    | nil => exact absurd (by rfl) hq
    | cons c0 y' =>
      by_cases hc0 : isSpaceChar c0 = true
      · have hne : (c0 :: y').takeWhile isSpaceChar ≠ [] := by
          rw [List.takeWhile_cons_of_pos hc0]
          simp
        obtain ⟨c, hg⟩ := Option.isSome_iff_exists.mp (List.getLast?_isSome.mpr hne)
        rw [hg]
        rfl
      · exfalso
        apply hq
        rw [List.dropWhile_cons_of_neg (by simpa using hc0)]
        exact hy

/-! ### cleanXML: fuel facts for the attribute scanner -/

theorem fixAttrF_congr : ∀ (n m : Nat) (l : List Char),
    l.length ≤ n → l.length ≤ m → fixAttrF n l = fixAttrF m l := by
  intro n
  induction n with
  | zero =>
    intro m l h0 _
    have hl : l = [] := List.length_eq_zero.mp (Nat.le_zero.mp h0)
    subst hl
    cases m <;> rfl
  | succ n ih =>
    intro m l hn hm
    cases l with
    | nil => cases m <;> rfl
    | cons c rest =>
      cases m with
      | zero => simp at hm
      | succ m' =>
        cases htry : tryAttrMatch (c :: rest) with
        | none =>
          simp only [fixAttrF, htry]
          have h1 : rest.length ≤ n := by
            simp only [List.length_cons] at hn
            omega
          have h2 : rest.length ≤ m' := by
            simp only [List.length_cons] at hm
            omega
          rw [ih m' rest h1 h2]
        | some pr =>
          rcases pr with ⟨w, r⟩
          have hr := tryAttrMatch_rest_length htry
          simp only [fixAttrF, htry]
          have h1 : r.length ≤ n := by
            simp only [List.length_cons] at hn hr
            omega
          have h2 : r.length ≤ m' := by
            simp only [List.length_cons] at hm hr
            omega
          rw [ih m' r h1 h2]

theorem fixAttr_nil : fixAttr [] = [] := rfl

/-- One-step unfolding of the attribute scanner. -/
theorem fixAttr_cons (c : Char) (rest : List Char) :
    fixAttr (c :: rest) =
      match tryAttrMatch (c :: rest) with
      | some (w, r) => w ++ '=' :: '"' :: '"' :: fixAttr r
      | none => c :: fixAttr rest := by
  show fixAttrF ((c :: rest).length) (c :: rest) = _
  cases htry : tryAttrMatch (c :: rest) with
  | none =>
    simp only [List.length_cons, fixAttrF, htry]
    rfl
  | some pr =>
    rcases pr with ⟨w, r⟩
    have hr := tryAttrMatch_rest_length htry
    simp only [List.length_cons, fixAttrF, htry]
    rw [fixAttrF_congr rest.length r.length r (by simp only [List.length_cons] at hr; omega)
      (Nat.le_refl _)]
    rfl

/-! ### cleanXML: the preceding-word state -/

theorem lastNonWs_append (a b : List Char) :
    lastNonWs (a ++ b) = if b.all isSpaceChar then lastNonWs a else lastNonWs b := by
  unfold lastNonWs
  rw [List.reverse_append, List.dropWhile_append]
  by_cases hb : (b.reverse.dropWhile isSpaceChar).isEmpty = true
  · rw [if_pos hb]
    have hall : b.all isSpaceChar = true := by
      rw [List.isEmpty_iff, List.dropWhile_eq_nil_iff] at hb
      rw [List.all_eq_true]
      intro x hx
      exact hb x (List.mem_reverse.mpr hx)
    rw [if_pos hall]
  · rw [if_neg hb]
    have hnall : ¬ b.all isSpaceChar = true := by
      intro hall
      apply hb
      rw [List.isEmpty_iff, List.dropWhile_eq_nil_iff]
      intro x hx
      exact (List.all_eq_true.mp hall) x (List.mem_reverse.mp hx)
    rw [if_neg hnall]
    cases hdb : b.reverse.dropWhile isSpaceChar with
    | nil => rw [hdb] at hb; exact absurd rfl hb
    | cons c0 t => rfl

theorem lastNonWs_isSome_of {x : List Char} (hx : ¬ x.all isSpaceChar = true) :
    ∃ c, lastNonWs x = some c ∧ isSpaceChar c = false := by
  unfold lastNonWs
  cases hdx : x.reverse.dropWhile isSpaceChar with
  | nil =>
    exfalso
    apply hx
    rw [List.all_eq_true]
    intro y hy
    exact List.dropWhile_eq_nil_iff.mp hdx y (List.mem_reverse.mpr hy)
  | cons c0 t =>
    refine ⟨c0, rfl, ?_⟩
    have hh := List.head?_dropWhile_not isSpaceChar x.reverse
    rw [hdx] at hh
    exact hh

theorem wordBeforeCtx_append (b : Bool) (p x : List Char) :
    wordBeforeCtx b (p ++ x) =
      if x.all isSpaceChar then wordBeforeCtx b p else wordBeforeCtx b x := by
  unfold wordBeforeCtx
  rw [lastNonWs_append]
  by_cases hx : x.all isSpaceChar = true
  · rw [if_pos hx, if_pos hx]
  · rw [if_neg hx, if_neg hx]

theorem wordBeforeCtx_of_allspace {x : List Char} (b : Bool)
    (hx : x.all isSpaceChar = true) : wordBeforeCtx b x = b := by
  unfold wordBeforeCtx lastNonWs
  have : x.reverse.dropWhile isSpaceChar = [] := by
    rw [List.dropWhile_eq_nil_iff]
    intro y hy
    exact (List.all_eq_true.mp hx) y (List.mem_reverse.mp hy)
  rw [this]
  rfl

theorem wordBeforeCtx_congr {x : List Char} (hx : ¬ x.all isSpaceChar = true)
    (b b' : Bool) : wordBeforeCtx b x = wordBeforeCtx b' x := by
  obtain ⟨c, hc, _⟩ := lastNonWs_isSome_of hx
  unfold wordBeforeCtx
  rw [hc]

theorem wordBeforeCtx_cons (b : Bool) (c : Char) (x : List Char) :
    wordBeforeCtx b (c :: x) =
      wordBeforeCtx (if isSpaceChar c then b else isWordChar c) x := by
  have hcx : c :: x = [c] ++ x := rfl
  rw [hcx, wordBeforeCtx_append]
  by_cases hx : x.all isSpaceChar = true
  · rw [if_pos hx, wordBeforeCtx_of_allspace _ hx]
    unfold wordBeforeCtx lastNonWs
    by_cases hc : isSpaceChar c = true
    · rw [if_pos hc]
      simp [List.dropWhile_cons, hc]
    · rw [if_neg hc]
      simp [List.dropWhile_cons, hc]
  · rw [if_neg hx]
    exact wordBeforeCtx_congr hx b _

/-! ### cleanXML: the scan decides harmlessness of every `=` -/

theorem eqSafeGo_iff : ∀ (l : List Char) (b : Bool),
    eqSafeGo b l = true ↔
      (∀ x y, l = x ++ '=' :: y → headIsQuote y = true ∨ wordBeforeCtx b x = false) := by
  intro l
  induction l with
  | nil =>
    intro b
    constructor
    · intro _ x y hxy
      exact absurd hxy (by cases x <;> simp)
    · intro _
      rfl
  | cons c l0 ih =>
    intro b
    have hstep : eqSafeGo b (c :: l0) =
        ((if c = '=' then headIsQuote l0 || !b else true) &&
          eqSafeGo (if isSpaceChar c then b else isWordChar c) l0) := rfl
    constructor
    · intro h x y hxy
      rw [hstep] at h
      obtain ⟨hg, hrest⟩ := Bool.and_eq_true_iff.mp h
      cases x with
      | nil =>
        simp only [List.nil_append, List.cons.injEq] at hxy
        obtain ⟨rfl, rfl⟩ := hxy
        rw [if_pos rfl] at hg
        rcases Bool.or_eq_true_iff.mp hg with hq | hb
        · exact Or.inl hq
        · right
          rw [wordBeforeCtx_of_allspace b (by rfl)]
          revert hb
          cases b <;> simp
      | cons c' x' =>
        rw [List.cons_append] at hxy
        injection hxy with h1 h2
        subst h1
        rcases (ih _).mp hrest x' y h2 with hq | hw
        · exact Or.inl hq
        · right
          rw [wordBeforeCtx_cons]
          exact hw
    · intro h
      rw [hstep]
      refine Bool.and_eq_true_iff.mpr ⟨?_, ?_⟩
      · by_cases hc : c = '='
        · rw [if_pos hc]
          subst hc
          rcases h [] l0 rfl with hq | hw
          · rw [hq]
            simp
          · rw [wordBeforeCtx_of_allspace b (by rfl)] at hw
            rw [hw]
            simp
        · rw [if_neg hc]
      · refine (ih _).mpr ?_
        intro x' y hl0
        rcases h (c :: x') y (by rw [hl0, List.cons_append]) with hq | hw
        · exact Or.inl hq
        · right
          rw [wordBeforeCtx_cons] at hw
          exact hw

theorem eqSplitSafeB_iff (l : List Char) : eqSplitSafeB l = true ↔ EqSplitSafe l := by
  unfold eqSplitSafeB EqSplitSafe wordBefore
  exact eqSafeGo_iff l false

/-! ### cleanXML: closure properties of `EqSplitSafe` -/

theorem eqSplitSafe_nil : EqSplitSafe [] := by
  intro x y hxy
  exact absurd hxy (by cases x <;> simp)

theorem eq_split_of_append {p q x y : List Char} (h : p ++ q = x ++ '=' :: y) :
    (∃ y₁, p = x ++ '=' :: y₁ ∧ y = y₁ ++ q) ∨
    (∃ x₂, q = x₂ ++ '=' :: y ∧ x = p ++ x₂) := by
  rcases List.append_eq_append_iff.mp h with ⟨a, ha1, ha2⟩ | ⟨a, ha1, ha2⟩
  · exact Or.inr ⟨a, ha2, ha1⟩
  · cases a with
    | nil =>
      simp only [List.nil_append] at ha2
      refine Or.inr ⟨[], ha2.symm, ?_⟩
      simp [ha1]
    | cons e a' =>
      rw [List.cons_append] at ha2
      injection ha2 with h1 h2
      subst h1
      exact Or.inl ⟨a', ha1, h2⟩

theorem eqSplitSafe_of_cons {c : Char} {l : List Char} (h : EqSplitSafe (c :: l)) :
    EqSplitSafe l := by
  intro x y hxy
  rcases h (c :: x) y (by rw [hxy, List.cons_append]) with hq | hw
  · exact Or.inl hq
  · right
    unfold wordBefore at *
    rw [wordBeforeCtx_cons] at hw
    by_cases hx : x.all isSpaceChar = true
    · rw [wordBeforeCtx_of_allspace _ hx]
    · rw [wordBeforeCtx_congr hx false _]
      exact hw

theorem eqSplitSafe_cons_of_nonword {c : Char} {l : List Char} (hc : isWordChar c = false)
    (h : EqSplitSafe l) : EqSplitSafe (c :: l) := by
  intro x y hxy
  cases x with
  | nil =>
    right
    rfl
  | cons c' x' =>
    rw [List.cons_append] at hxy
    injection hxy with h1 h2
    subst h1
    rcases h x' y h2 with hq | hw
    · exact Or.inl hq
    · right
      unfold wordBefore at *
      rw [wordBeforeCtx_cons]
      by_cases hx : x'.all isSpaceChar = true
      · rw [wordBeforeCtx_of_allspace _ hx]
        by_cases hcs : isSpaceChar c = true
        · rw [if_pos hcs]
        · rw [if_neg hcs]
          exact hc
      · rw [wordBeforeCtx_congr hx _ false]
        exact hw

theorem eqSplitSafe_append_left {p l : List Char} (h : EqSplitSafe l)
    (hp : ('=' : Char) ∉ p) (hw : wordBefore p = false) : EqSplitSafe (p ++ l) := by
  intro x y hxy
  rcases eq_split_of_append hxy with ⟨y₁, hp1, hy1⟩ | ⟨x₂, hq1, hx1⟩
  · exact absurd (by rw [hp1]; exact List.mem_append_right _ (List.mem_cons_self _ _)) hp
  · rcases h x₂ y hq1 with hq | hw2
    · exact Or.inl hq
    · right
      rw [hx1]
      unfold wordBefore at *
      rw [wordBeforeCtx_append]
      by_cases hx : x₂.all isSpaceChar = true
      · rw [if_pos hx]
        exact hw
      · rw [if_neg hx]
        exact hw2

theorem eqSplitSafe_append {p l : List Char} (hp : EqSplitSafe p) (h : EqSplitSafe l)
    (hwp : wordBefore p = false) (hlast : p.getLast? ≠ some '=') :
    EqSplitSafe (p ++ l) := by
  intro x y hxy
  rcases eq_split_of_append hxy with ⟨y₁, hp1, hy1⟩ | ⟨x₂, hq1, hx1⟩
  · cases y₁ with
    | nil =>
      exfalso
      apply hlast
      rw [hp1]
      have hconcat : x ++ '=' :: ([] : List Char) = x ++ ['='] := rfl
      rw [hconcat]
      simp
    | cons q y₁' =>
      rcases hp x (q :: y₁') hp1 with hq | hw
      · left
        rw [hy1, List.cons_append]
        exact hq
      · exact Or.inr hw
  · rcases h x₂ y hq1 with hq | hw2
    · exact Or.inl hq
    · right
      rw [hx1]
      unfold wordBefore at *
      rw [wordBeforeCtx_append]
      by_cases hx : x₂.all isSpaceChar = true
      · rw [if_pos hx]
        exact hwp
      · rw [if_neg hx]
        exact hw2

/-! ### cleanXML: the attribute scanner's output is safe -/

/-- A scanner output starting with a non-word character comes from a
failed position: the head was copied verbatim. -/
theorem fixAttr_cons_inv {m : List Char} {z : Char} {Z : List Char}
    (h : fixAttr m = z :: Z) (hz : isWordChar z = false) :
    ∃ m', m = z :: m' ∧ Z = fixAttr m' ∧ tryAttrMatch m = none := by
  cases m with
  | nil => rw [fixAttr_nil] at h; exact absurd h (by simp)
  | cons c rest =>
    rw [fixAttr_cons] at h
    cases htry : tryAttrMatch (c :: rest) with
    | some pr =>
      rcases pr with ⟨w, r⟩
      rw [htry] at h
      dsimp only at h
      obtain ⟨hw_eq, hne, _⟩ := tryAttrMatch_some_elim htry
      exfalso
      cases hwc : w with
      | nil => exact hne hwc
      | cons w0 w' =>
        rw [hwc, List.cons_append] at h
        injection h with h1 _
        have hmem : isWordChar w0 = true := by
          apply List.mem_takeWhile_imp (l := c :: rest) (p := isWordChar)
          rw [← hw_eq, hwc]
          exact List.mem_cons_self _ _
        rw [h1, hz] at hmem
        exact absurd hmem (by decide)
    | none =>
      rw [htry] at h
      dsimp only at h
      injection h with h1 h2
      subst h1
      refine ⟨rest, rfl, h2.symm, ?_⟩
      rfl

/-- A scanner output of the form `whitespace* = …` reflects the same
shape in the input. -/
theorem fixAttr_space_eq_inv : ∀ (x' : List Char), x'.all isSpaceChar = true →
    ∀ (m y : List Char), fixAttr m = x' ++ '=' :: y →
    ∃ r', m = x' ++ '=' :: r' ∧ y = fixAttr r' := by
  intro x'
  induction x' with
  | nil =>
    intro _ m y h
    simp only [List.nil_append] at h ⊢
    obtain ⟨m', hm, hz, _⟩ := fixAttr_cons_inv h (by decide)
    exact ⟨m', hm, hz⟩
  | cons sc x'' ih =>
    intro hall m y h
    have hsc : isSpaceChar sc = true := by
      rw [List.all_cons, Bool.and_eq_true] at hall
      exact hall.1
    have hall'' : x''.all isSpaceChar = true := by
      rw [List.all_cons, Bool.and_eq_true] at hall
      exact hall.2
    rw [List.cons_append] at h
    obtain ⟨m', hm, hz, _⟩ := fixAttr_cons_inv h (space_not_word hsc)
    obtain ⟨r', hm2, hy⟩ := ih hall'' m' y hz.symm
    exact ⟨r', by rw [hm, hm2, List.cons_append], hy⟩

/-- Main invariant: every `=` in the attribute scanner's output is
harmless, so a second scan matches nothing. -/
theorem eqSplitSafe_fixAttr (u : List Char) : EqSplitSafe (fixAttr u) := by
  suffices main : ∀ (n : Nat) (u : List Char), u.length ≤ n → EqSplitSafe (fixAttr u) from
    main u.length u (Nat.le_refl _)
  intro n
  induction n with
  | zero =>
    intro u h
    have hu : u = [] := List.length_eq_zero.mp (Nat.le_zero.mp h)
    subst hu
    rw [fixAttr_nil]
    exact eqSplitSafe_nil
  | succ n ih =>
    intro u hu
    cases u with
    | nil =>
      rw [fixAttr_nil]
      exact eqSplitSafe_nil
    | cons c rest =>
      have hrestlen : rest.length ≤ n := by
        simp only [List.length_cons] at hu
        omega
      cases htry : tryAttrMatch (c :: rest) with
      | none =>
        rw [fixAttr_cons, htry]
        dsimp only
        have hrest : EqSplitSafe (fixAttr rest) := ih rest hrestlen
        intro x y hxy
        cases x with
        | nil =>
          right
          rfl
        | cons c' x' =>
          rw [List.cons_append] at hxy
          injection hxy with h1 h2
          subst h1
          rcases hrest x' y h2 with hq | hw
          · exact Or.inl hq
          · by_cases hx : x'.all isSpaceChar = true
            · by_cases hcw : isWordChar c = true
              · obtain ⟨r', hrest2, hy⟩ := fixAttr_space_eq_inv x' hx rest y h2
                have hqr : headIsQuote r' = true := by
                  by_contra hqr'
                  have hs := tryAttrMatch_isSome c x' r' hcw
                    (fun cc hcc => (List.all_eq_true.mp hx) cc hcc)
                    (by revert hqr'; cases headIsQuote r' <;> simp)
                  rw [← hrest2] at hs
                  rw [htry] at hs
                  exact absurd hs (by simp)
                cases hr' : r' with
                | nil => rw [hr'] at hqr; exact absurd hqr (by decide)
                | cons q r'' =>
                  rw [hr'] at hqr
                  left
                  have hqnone : tryAttrMatch (q :: r'') = none := by
                    unfold tryAttrMatch
                    rw [List.takeWhile_cons_of_neg (by simp [quote_not_word hqr])]
                    rfl
                  rw [hy, hr', fixAttr_cons, hqnone]
                  dsimp only
                  exact hqr
              · right
                unfold wordBefore
                rw [wordBeforeCtx_cons, wordBeforeCtx_of_allspace _ hx]
                by_cases hcs : isSpaceChar c = true
                · rw [if_pos hcs]
                · rw [if_neg hcs]
                  revert hcw
                  cases isWordChar c <;> simp
            · right
              unfold wordBefore at *
              rw [wordBeforeCtx_cons, wordBeforeCtx_congr hx _ false]
              exact hw
      | some pr =>
        rcases pr with ⟨w, r⟩
        rw [fixAttr_cons, htry]
        dsimp only
        have hrlen := tryAttrMatch_rest_length htry
        have hfr : EqSplitSafe (fixAttr r) := by
          apply ih r
          simp only [List.length_cons] at hu hrlen
          omega
        obtain ⟨hw_eq, hwne, _⟩ := tryAttrMatch_some_elim htry
        have hwall : ∀ cc ∈ w, isWordChar cc = true := by
          intro cc hcc
          exact List.mem_takeWhile_imp (hw_eq ▸ hcc)
        intro x y hxy
        rcases eq_split_of_append hxy with ⟨y₁, hp1, hy1⟩ | ⟨x₂, hq1, hx1⟩
        · exfalso
          have hmem : ('=' : Char) ∈ w := by
            rw [hp1]
            exact List.mem_append_right _ (List.mem_cons_self _ _)
          have := hwall '=' hmem
          exact absurd this (by decide)
        · cases x₂ with
          | nil =>
            rw [List.nil_append] at hq1
            injection hq1 with _ hy2
            left
            rw [← hy2]
            rfl
          | cons e x₃ =>
            rw [List.cons_append] at hq1
            injection hq1 with he hq2
            subst he
            cases x₃ with
            | nil =>
              rw [List.nil_append] at hq2
              injection hq2 with h1 _
              exact absurd h1 (by decide)
            | cons e2 x₄ =>
              rw [List.cons_append] at hq2
              injection hq2 with he2 hq3
              subst he2
              cases x₄ with
              | nil =>
                rw [List.nil_append] at hq3
                injection hq3 with h1 _
                exact absurd h1 (by decide)
              | cons e3 x₅ =>
                rw [List.cons_append] at hq3
                injection hq3 with he3 hq4
                subst he3
                rcases hfr x₅ y hq4 with hq | hw5
                · exact Or.inl hq
                · right
                  rw [hx1]
                  unfold wordBefore at *
                  have hxform : w ++ '=' :: '"' :: '"' :: x₅ =
                      (w ++ ['=', '"', '"']) ++ x₅ := by simp
                  rw [hxform, wordBeforeCtx_append]
                  by_cases hx5 : x₅.all isSpaceChar = true
                  · rw [if_pos hx5]
                    rw [wordBeforeCtx_append]
                    rw [if_neg (by decide)]
                    decide
                  · rw [if_neg hx5]
                    exact hw5

/-! ### cleanXML: the entity escape pass -/

theorem space_ne_amp {c : Char} (h : isSpaceChar c = true) : c ≠ '&' := by
  have hm : c ∈ spaceChars := by
    unfold isSpaceChar List.contains at h
    exact List.elem_iff.mp h
  fin_cases hm <;> decide

theorem quote_ne_amp {c : Char} (h : isQuoteChar c = true) : c ≠ '&' := by
  unfold isQuoteChar at h
  simp only [Bool.or_eq_true, beq_iff_eq] at h
  rcases h with rfl | rfl <;> decide

theorem space_not_quote {c : Char} (h : isSpaceChar c = true) : isQuoteChar c = false := by
  have hm : c ∈ spaceChars := by
    unfold isSpaceChar List.contains at h
    exact List.elem_iff.mp h
  fin_cases hm <;> decide

theorem fixAmp_cons (c : Char) (rest : List Char) :
    fixAmp (c :: rest) =
      if c = '&' then
        (if entityHead rest = true then '&' :: fixAmp rest
         else '&' :: 'a' :: 'm' :: 'p' :: ';' :: fixAmp rest)
      else c :: fixAmp rest := rfl

theorem fixAmp_cons_of_ne {c : Char} (rest : List Char) (hc : c ≠ '&') :
    fixAmp (c :: rest) = c :: fixAmp rest := by
  rw [fixAmp_cons, if_neg hc]

theorem fixAmp_cons_amp_pos (rest : List Char) (h : entityHead rest = true) :
    fixAmp ('&' :: rest) = '&' :: fixAmp rest := by
  rw [fixAmp_cons, if_pos rfl, if_pos h]

theorem fixAmp_cons_amp_neg (rest : List Char) (h : entityHead rest = false) :
    fixAmp ('&' :: rest) = '&' :: 'a' :: 'm' :: 'p' :: ';' :: fixAmp rest := by
  rw [fixAmp_cons, if_pos rfl, if_neg (by rw [h]; exact Bool.false_ne_true)]

/-- A fixAmp output starting with a non-`&` character copied its head. -/
theorem fixAmp_cons_inv {m : List Char} {z : Char} {Z : List Char}
    (h : fixAmp m = z :: Z) (hz : z ≠ '&') : ∃ m', m = z :: m' ∧ Z = fixAmp m' := by
  cases m with
  | nil => exact absurd h (by simp [fixAmp])
  | cons d m' =>
    by_cases hd : d = '&'
    · subst hd
      exfalso
      cases hent : entityHead m' with
      | true =>
        rw [fixAmp_cons_amp_pos m' hent] at h
        injection h with h1 _
        exact hz h1.symm
      | false =>
        rw [fixAmp_cons_amp_neg m' hent] at h
        injection h with h1 _
        exact hz h1.symm
    · rw [fixAmp_cons_of_ne m' hd] at h
      injection h with h1 h2
      subst h1
      exact ⟨m', rfl, h2.symm⟩

theorem fixAmp_space_eq_inv : ∀ (x' : List Char), x'.all isSpaceChar = true →
    ∀ (m y : List Char), fixAmp m = x' ++ '=' :: y →
    ∃ r', m = x' ++ '=' :: r' ∧ y = fixAmp r' := by
  intro x'
  induction x' with
  | nil =>
    intro _ m y h
    simp only [List.nil_append] at h ⊢
    obtain ⟨m', hm, hz⟩ := fixAmp_cons_inv h (by decide)
    exact ⟨m', hm, hz⟩
  | cons sc x'' ih =>
    intro hall m y h
    rw [List.all_cons, Bool.and_eq_true_iff] at hall
    rw [List.cons_append] at h
    obtain ⟨m', hm, hz⟩ := fixAmp_cons_inv h (space_ne_amp hall.1)
    obtain ⟨r', hm2, hy⟩ := ih hall.2 m' y hz.symm
    exact ⟨r', by rw [hm, hm2, List.cons_append], hy⟩

/-- The entity pass preserves harmlessness of every `=`. -/
theorem eqSplitSafe_fixAmp : ∀ {l : List Char}, EqSplitSafe l → EqSplitSafe (fixAmp l) := by
  intro l
  induction l with
  | nil =>
    intro _
    exact eqSplitSafe_nil
  | cons c rest ih =>
    intro h
    have hrest := ih (eqSplitSafe_of_cons h)
    by_cases hc : c = '&'
    · subst hc
      cases hent : entityHead rest with
      | true =>
        rw [fixAmp_cons_amp_pos rest hent]
        exact eqSplitSafe_cons_of_nonword (by decide) hrest
      | false =>
        rw [fixAmp_cons_amp_neg rest hent]
        have hblock : '&' :: 'a' :: 'm' :: 'p' :: ';' :: fixAmp rest =
            ['&', 'a', 'm', 'p', ';'] ++ fixAmp rest := rfl
        rw [hblock]
        refine eqSplitSafe_append_left hrest (by decide) (by decide)
    · by_cases hcw : isWordChar c = true
      · rw [fixAmp_cons_of_ne rest hc]
        intro x y hxy
        cases x with
        | nil =>
          rw [List.nil_append] at hxy
          injection hxy with h1 _
          rw [h1] at hcw
          exact absurd hcw (by decide)
        | cons c' x' =>
          rw [List.cons_append] at hxy
          injection hxy with h1 h2
          subst h1
          rcases hrest x' y h2 with hq | hw
          · exact Or.inl hq
          · by_cases hx : x'.all isSpaceChar = true
            · obtain ⟨r', hrest2, hy⟩ := fixAmp_space_eq_inv x' hx rest y h2
              have hsplit : c :: rest = (c :: x') ++ '=' :: r' := by
                rw [hrest2, List.cons_append]
              rcases h (c :: x') r' hsplit with hqr | hwr
              · cases hr' : r' with
                | nil => rw [hr'] at hqr; exact absurd hqr (by decide)
                | cons q r'' =>
                  rw [hr'] at hqr
                  left
                  rw [hy, hr', fixAmp_cons_of_ne r'' (quote_ne_amp hqr)]
                  exact hqr
              · exfalso
                unfold wordBefore at hwr
                rw [wordBeforeCtx_cons, wordBeforeCtx_of_allspace _ hx] at hwr
                rw [if_neg (by rw [word_not_space hcw]; exact Bool.false_ne_true)] at hwr
                rw [hcw] at hwr
                exact absurd hwr (by decide)
            · right
              unfold wordBefore at *
              rw [wordBeforeCtx_cons, wordBeforeCtx_congr hx _ false]
              exact hw
      · rw [fixAmp_cons_of_ne rest hc]
        refine eqSplitSafe_cons_of_nonword ?_ hrest
        revert hcw
        cases isWordChar c <;> simp

theorem listStartsWith_nil (l : List Char) : listStartsWith l [] = true := by
  cases l <;> rfl

/-- `listStartsWith` holds on a literal copy of the pattern. -/
theorem listStartsWith_append_self (p r : List Char) :
    listStartsWith (p ++ r) p = true := by
  induction p with
  | nil => exact listStartsWith_nil r
  | cons c ps ih => simp [listStartsWith, ih]

/-- `listStartsWith` exposes the pattern as a physical prefix. -/
theorem listStartsWith_elim : ∀ {l p : List Char},
    listStartsWith l p = true → ∃ t, l = p ++ t := by
  intro l p
  induction p generalizing l with
  | nil =>
    intro _
    exact ⟨l, rfl⟩
  | cons c ps ih =>
    intro h
    cases l with
    | nil => exact absurd h (by simp [listStartsWith])
    | cons d ds =>
      unfold listStartsWith at h
      rw [Bool.and_eq_true_iff] at h
      obtain ⟨t, ht⟩ := ih h.2
      have hd : d = c := by
        have := h.1
        simpa using this
      exact ⟨t, by rw [hd, ht, List.cons_append]⟩

/-- `fixAmp` copies any amp-free prefix verbatim. -/
theorem fixAmp_append_no_amp : ∀ (p t : List Char), (∀ c ∈ p, c ≠ '&') →
    fixAmp (p ++ t) = p ++ fixAmp t := by
  intro p
  induction p with
  | nil => intro t _; rfl
  | cons c ps ih =>
    intro t hp
    rw [List.cons_append, fixAmp_cons_of_ne _ (hp c (List.mem_cons_self _ _)),
      ih t (fun d hd => hp d (List.mem_cons_of_mem _ hd)), List.cons_append]

/-- `entityHead` survives `fixAmp` of the rest. -/
theorem entityHead_fixAmp {rest : List Char} (h : entityHead rest = true) :
    entityHead (fixAmp rest) = true := by
  unfold entityHead at h ⊢
  rcases Bool.or_eq_true_iff.mp h with h4 | h5
  rcases Bool.or_eq_true_iff.mp h4 with h3 | h4'
  rcases Bool.or_eq_true_iff.mp h3 with h2 | h3'
  rcases Bool.or_eq_true_iff.mp h2 with h1 | h2'
  · obtain ⟨t, rfl⟩ := listStartsWith_elim h1
    rw [fixAmp_append_no_amp _ _ (by decide)]
    simp only [Bool.or_eq_true]
    exact Or.inl (Or.inl (Or.inl (Or.inl (listStartsWith_append_self _ _))))
  · obtain ⟨t, rfl⟩ := listStartsWith_elim h2'
    rw [fixAmp_append_no_amp _ _ (by decide)]
    simp only [Bool.or_eq_true]
    exact Or.inl (Or.inl (Or.inl (Or.inr (listStartsWith_append_self _ _))))
  · obtain ⟨t, rfl⟩ := listStartsWith_elim h3'
    rw [fixAmp_append_no_amp _ _ (by decide)]
    simp only [Bool.or_eq_true]
    exact Or.inl (Or.inl (Or.inr (listStartsWith_append_self _ _)))
  · obtain ⟨t, rfl⟩ := listStartsWith_elim h4'
    rw [fixAmp_append_no_amp _ _ (by decide)]
    simp only [Bool.or_eq_true]
    exact Or.inl (Or.inr (listStartsWith_append_self _ _))
  · obtain ⟨t, rfl⟩ := listStartsWith_elim h5
    rw [fixAmp_append_no_amp _ _ (by decide)]
    simp only [Bool.or_eq_true]
    exact Or.inr (listStartsWith_append_self _ _)

theorem ampOk_cons (c : Char) (r : List Char) :
    ampOk (c :: r) = ((if c = '&' then entityHead r else true) && ampOk r) := rfl

theorem ampOk_cons_of_ne {c : Char} (r : List Char) (hc : c ≠ '&') :
    ampOk (c :: r) = ampOk r := by
  rw [ampOk_cons, if_neg hc, Bool.true_and]

/-- Every `&` in the entity pass's output starts an entity. -/
theorem fixAmp_ampOk : ∀ (l : List Char), ampOk (fixAmp l) = true := by
  intro l
  induction l with
  | nil => rfl
  | cons c rest ih =>
    by_cases hc : c = '&'
    · subst hc
      cases hent : entityHead rest with
      | true =>
        rw [fixAmp_cons_amp_pos rest hent]
        rw [ampOk_cons, if_pos rfl, entityHead_fixAmp hent, ih]
        rfl
      | false =>
        rw [fixAmp_cons_amp_neg rest hent]
        rw [ampOk_cons, if_pos rfl]
        have hblockent : entityHead ('a' :: 'm' :: 'p' :: ';' :: fixAmp rest) = true := by
          unfold entityHead
          have hform : 'a' :: 'm' :: 'p' :: ';' :: fixAmp rest =
              "amp;".data ++ fixAmp rest := rfl
          rw [hform, listStartsWith_append_self]
          rfl
        rw [hblockent]
        rw [ampOk_cons_of_ne _ (by decide), ampOk_cons_of_ne _ (by decide),
          ampOk_cons_of_ne _ (by decide), ampOk_cons_of_ne _ (by decide), ih]
        rfl
    · rw [fixAmp_cons_of_ne rest hc, ampOk_cons_of_ne _ hc, ih]

/-- With every `&` already escaped, the entity pass is the identity. -/
theorem fixAmp_eq_self : ∀ {l : List Char}, ampOk l = true → fixAmp l = l := by
  intro l
  induction l with
  | nil => intro _; rfl
  | cons c rest ih =>
    intro h
    by_cases hc : c = '&'
    · subst hc
      rw [ampOk_cons, if_pos rfl, Bool.and_eq_true_iff] at h
      rw [fixAmp_cons_amp_pos rest h.1, ih h.2]
    · rw [ampOk_cons_of_ne rest hc] at h
      rw [fixAmp_cons_of_ne rest hc, ih h]

theorem ampOk_append_no_amp : ∀ (p t : List Char), (∀ c ∈ p, c ≠ '&') →
    ampOk (p ++ t) = ampOk t := by
  intro p
  induction p with
  | nil => intro t _; rfl
  | cons c ps ih =>
    intro t hp
    rw [List.cons_append, ampOk_cons_of_ne _ (hp c (List.mem_cons_self _ _)),
      ih t (fun d hd => hp d (List.mem_cons_of_mem _ hd))]

theorem ampOk_tail {c : Char} {r : List Char} (h : ampOk (c :: r) = true) :
    ampOk r = true := by
  rw [ampOk_cons, Bool.and_eq_true_iff] at h
  exact h.2

/-! ### cleanXML: if every `=` is harmless the attribute pass fixes nothing -/

theorem fixAttr_eq_self_of_noMatch : ∀ (l : List Char),
    (∀ v t₀, t₀ ++ v = l → tryAttrMatch v = none) → fixAttr l = l := by
  intro l
  induction l with
  | nil => intro _; rfl
  | cons c rest ih =>
    intro h
    have h0 : tryAttrMatch (c :: rest) = none := h (c :: rest) [] rfl
    rw [fixAttr_cons, h0]
    dsimp only
    rw [ih (fun v t₀ hv => h v (c :: t₀) (by rw [List.cons_append, hv]))]

theorem mem_of_lastNonWs {x : List Char} {c : Char} (h : lastNonWs x = some c) : c ∈ x := by
  unfold lastNonWs at h
  have h1 : c ∈ x.reverse.dropWhile isSpaceChar := by
    cases hdx : x.reverse.dropWhile isSpaceChar with
    | nil => rw [hdx] at h; exact absurd h (by simp)
    | cons a t =>
      rw [hdx] at h
      have ha : a = c := by simpa using h
      rw [← ha] at h ⊢
      exact List.mem_cons_self a t
  exact List.mem_reverse.mp ((List.dropWhile_sublist _).subset h1)

/-- On a string whose every `=` is harmless, the attribute pattern never
fires at any position. -/
theorem tryAttrMatch_none_of_safe {l : List Char} (h : EqSplitSafe l) :
    ∀ v t₀, t₀ ++ v = l → tryAttrMatch v = none := by
  intro v t₀ hv
  cases hm : tryAttrMatch v with
  | none => rfl
  | some pr =>
    exfalso
    rcases pr with ⟨w, r⟩
    obtain ⟨hw, hwne, l3, heq, hcase⟩ := tryAttrMatch_some_elim hm
    have hv1 : v = v.takeWhile isWordChar ++ v.dropWhile isWordChar :=
      (List.takeWhile_append_dropWhile _ _).symm
    have hv2 : v.dropWhile isWordChar =
        (v.dropWhile isWordChar).takeWhile isSpaceChar ++ '=' :: l3 := by
      have h2 := List.takeWhile_append_dropWhile isSpaceChar (v.dropWhile isWordChar)
      rw [heq] at h2
      exact h2.symm
    have hl : l = (t₀ ++ v.takeWhile isWordChar ++
        (v.dropWhile isWordChar).takeWhile isSpaceChar) ++ '=' :: l3 := by
      rw [← hv]
      conv =>
        lhs
        rw [hv1, hv2]
      simp [List.append_assoc]
    rcases h _ _ hl with hq | hwb
    · rcases hcase with ⟨hqf, _⟩ | ⟨c0, hg, _, _⟩
      · cases l3 with
        | nil => exact absurd hq (by decide)
        | cons q l3' =>
          have hqs : isSpaceChar q = false := quote_not_space hq
          rw [List.dropWhile_cons_of_neg (by simp [hqs])] at hqf
          rw [show headIsQuote (q :: l3') = isQuoteChar q from rfl] at hq hqf
          rw [hq] at hqf
          exact absurd hqf (by decide)
      · cases l3 with
        | nil => exact absurd hg (by simp)
        | cons d l3' =>
          have hd : isSpaceChar d = false :=
            quote_not_space (by simpa using hq)
          rw [List.takeWhile_cons_of_neg (by simp [hd])] at hg
          exact absurd hg (by simp)
    · have hwne' : v.takeWhile isWordChar ≠ [] := hw ▸ hwne
      have hnall : ¬ (v.takeWhile isWordChar).all isSpaceChar = true := by
        intro hall
        cases hvt : v.takeWhile isWordChar with
        | nil => exact hwne' hvt
        | cons w0 ws =>
          have hmem : w0 ∈ v.takeWhile isWordChar := by
            rw [hvt]
            exact List.mem_cons_self w0 ws
          have hw0 : isWordChar w0 = true := List.mem_takeWhile_imp hmem
          have hs0 : isSpaceChar w0 = true := List.all_eq_true.mp hall w0 hmem
          rw [word_not_space hw0] at hs0
          exact absurd hs0 (by decide)
      obtain ⟨c0, hc0, _⟩ := lastNonWs_isSome_of hnall
      have hc0w : isWordChar c0 = true :=
        List.mem_takeWhile_imp (mem_of_lastNonWs hc0)
      have hs1all : ((v.dropWhile isWordChar).takeWhile isSpaceChar).all isSpaceChar = true := by
        rw [List.all_eq_true]
        intro d hd
        exact List.mem_takeWhile_imp hd
      unfold wordBefore at hwb
      rw [wordBeforeCtx_append, if_pos hs1all, wordBeforeCtx_append, if_neg hnall] at hwb
      have hwb2 : wordBeforeCtx false (v.takeWhile isWordChar) = isWordChar c0 := by
        unfold wordBeforeCtx
        rw [hc0]
      rw [hwb2, hc0w] at hwb
      exact absurd hwb (by decide)

/-- On a string whose every `=` is harmless, the attribute pass is the
identity. -/
theorem fixAttr_eq_self {l : List Char} (h : EqSplitSafe l) : fixAttr l = l :=
  fixAttr_eq_self_of_noMatch l (tryAttrMatch_none_of_safe h)

/-! ### cleanXML: character provenance and NUL freedom -/

theorem fixAttr_subset : ∀ (n : Nat) (l : List Char), l.length ≤ n →
    ∀ c ∈ fixAttr l, c ∈ l ∨ c = '=' ∨ c = '"' := by
  intro n
  induction n with
  | zero =>
    intro l h0 c hc
    have hl : l = [] := List.length_eq_zero.mp (Nat.le_zero.mp h0)
    subst hl
    rw [fixAttr_nil] at hc
    exact absurd hc (List.not_mem_nil c)
  | succ n ih =>
    intro l hl c hc
    cases l with
    | nil =>
      rw [fixAttr_nil] at hc
      exact absurd hc (List.not_mem_nil c)
    | cons a rest =>
      rw [fixAttr_cons] at hc
      cases htry : tryAttrMatch (a :: rest) with
      | none =>
        rw [htry] at hc
        dsimp only at hc
        rcases List.mem_cons.mp hc with rfl | hc'
        · exact Or.inl (List.mem_cons_self _ _)
        · rcases ih rest (by simp only [List.length_cons] at hl; omega) c hc' with h1 | h2
          · exact Or.inl (List.mem_cons_of_mem _ h1)
          · exact Or.inr h2
      | some pr =>
        rcases pr with ⟨w, r⟩
        rw [htry] at hc
        dsimp only at hc
        obtain ⟨hw, _, l3, heq, hcase⟩ := tryAttrMatch_some_elim htry
        have hrlen := tryAttrMatch_rest_length htry
        have hwsub : ∀ d ∈ w, d ∈ a :: rest := by
          intro d hd
          rw [hw] at hd
          exact (List.takeWhile_sublist _).subset hd
        have hl3sub : ∀ d ∈ l3, d ∈ a :: rest := by
          intro d hd
          have h1 : d ∈ '=' :: l3 := List.mem_cons_of_mem _ hd
          rw [← heq] at h1
          exact (List.dropWhile_sublist _).subset ((List.dropWhile_sublist _).subset h1)
        have hrsub : ∀ d ∈ r, d ∈ a :: rest := by
          rcases hcase with ⟨_, hr⟩ | ⟨c0, hg, _, hr⟩
          · subst hr
            intro d hd
            exact hl3sub d ((List.dropWhile_sublist _).subset hd)
          · subst hr
            intro d hd
            rcases List.mem_cons.mp hd with rfl | hd'
            · exact hl3sub d ((List.takeWhile_sublist _).subset (mem_of_getLast?_eq hg))
            · exact hl3sub d ((List.dropWhile_sublist _).subset hd')
        rcases List.mem_append.mp hc with hcw | hcr
        · exact Or.inl (hwsub c hcw)
        · rcases List.mem_cons.mp hcr with rfl | hcr2
          · exact Or.inr (Or.inl rfl)
          rcases List.mem_cons.mp hcr2 with rfl | hcr3
          · exact Or.inr (Or.inr rfl)
          rcases List.mem_cons.mp hcr3 with rfl | hcr4
          · exact Or.inr (Or.inr rfl)
          · have hrn : r.length ≤ n := by
              simp only [List.length_cons] at hl hrlen
              omega
            rcases ih r hrn c hcr4 with h1 | h2
            · exact Or.inl (hrsub c h1)
            · exact Or.inr h2

theorem fixAmp_subset : ∀ (l : List Char), ∀ c ∈ fixAmp l,
    c ∈ l ∨ c = 'a' ∨ c = 'm' ∨ c = 'p' ∨ c = ';' := by
  intro l
  induction l with
  | nil =>
    intro c hc
    exact absurd hc (by simp [fixAmp])
  | cons d rest ih =>
    intro c hc
    by_cases hd : d = '&'
    · subst hd
      cases hent : entityHead rest with
      | true =>
        rw [fixAmp_cons_amp_pos rest hent] at hc
        rcases List.mem_cons.mp hc with rfl | hc'
        · exact Or.inl (List.mem_cons_self _ _)
        · rcases ih c hc' with h1 | h2
          · exact Or.inl (List.mem_cons_of_mem _ h1)
          · exact Or.inr h2
      | false =>
        rw [fixAmp_cons_amp_neg rest hent] at hc
        rcases List.mem_cons.mp hc with rfl | hc1
        · exact Or.inl (List.mem_cons_self _ _)
        rcases List.mem_cons.mp hc1 with rfl | hc2
        · exact Or.inr (Or.inl rfl)
        rcases List.mem_cons.mp hc2 with rfl | hc3
        · exact Or.inr (Or.inr (Or.inl rfl))
        rcases List.mem_cons.mp hc3 with rfl | hc4
        · exact Or.inr (Or.inr (Or.inr (Or.inl rfl)))
        rcases List.mem_cons.mp hc4 with rfl | hc5
        · exact Or.inr (Or.inr (Or.inr (Or.inr rfl)))
        · rcases ih c hc5 with h1 | h2
          · exact Or.inl (List.mem_cons_of_mem _ h1)
          · exact Or.inr h2
    · rw [fixAmp_cons_of_ne rest hd] at hc
      rcases List.mem_cons.mp hc with rfl | hc'
      · exact Or.inl (List.mem_cons_self _ _)
      · rcases ih c hc' with h1 | h2
        · exact Or.inl (List.mem_cons_of_mem _ h1)
        · exact Or.inr h2

theorem nul_not_mem_stripNul (l : List Char) : '\x00' ∉ stripNul l := by
  intro h
  unfold stripNul at h
  have := List.of_mem_filter h
  simp at this

theorem stripNul_eq_self {l : List Char} (h : '\x00' ∉ l) : stripNul l = l := by
  unfold stripNul
  rw [List.filter_eq_self]
  intro a ha
  simp only [bne_iff_ne, ne_eq]
  intro heq
  exact h (heq ▸ ha)

theorem stripBOM_cons (c : Char) (r : List Char) :
    stripBOM (c :: r) = if c = '\uFEFF' then r else c :: r := by
  by_cases h : c = '\uFEFF'
  · subst h
    rfl
  · rw [if_neg h]
    unfold stripBOM
    split
    next heq =>
      injection heq with h1 _
      exact absurd h1 h
    next => rfl

theorem nul_not_mem_stripBOM {l : List Char} (h : '\x00' ∉ l) : '\x00' ∉ stripBOM l := by
  cases l with
  | nil => exact h
  | cons c r =>
    rw [stripBOM_cons]
    by_cases hc : c = '\uFEFF'
    · rw [if_pos hc]
      intro hm
      exact h (List.mem_cons_of_mem _ hm)
    · rw [if_neg hc]
      exact h

theorem eqSplitSafe_stripBOM {l : List Char} (h : EqSplitSafe l) :
    EqSplitSafe (stripBOM l) := by
  cases l with
  | nil => exact h
  | cons c r =>
    rw [stripBOM_cons]
    by_cases hc : c = '\uFEFF'
    · rw [if_pos hc]
      exact eqSplitSafe_of_cons h
    · rw [if_neg hc]
      exact h

theorem ampOk_stripBOM {l : List Char} (h : ampOk l = true) :
    ampOk (stripBOM l) = true := by
  cases l with
  | nil => exact h
  | cons c r =>
    rw [stripBOM_cons]
    by_cases hc : c = '\uFEFF'
    · rw [if_pos hc]
      exact ampOk_tail h
    · rw [if_neg hc]
      exact h

/-! ### cleanXML: the declaration check -/

theorem listContains_of_startsWith {l pat : List Char}
    (h : listStartsWith l pat = true) : listContains l pat = true := by
  cases l with
  | nil => exact h
  | cons c rest =>
    unfold listContains
    rw [h]
    rfl

theorem xmlDecl_split : xmlDecl = "<?xml".data ++
    (" version=\"1.0\" encoding=\"UTF-8\"?>" ++ "\n").data := by decide

theorem containsXmlDecl_xmlDecl_append (t : List Char) :
    containsXmlDecl (xmlDecl ++ t) = true := by
  unfold containsXmlDecl
  refine listContains_of_startsWith ?_
  rw [xmlDecl_split, List.append_assoc]
  exact listStartsWith_append_self _ _

theorem containsXmlDecl_stripBOM {l : List Char} (h : containsXmlDecl l = true) :
    containsXmlDecl (stripBOM l) = true := by
  cases l with
  | nil => exact h
  | cons c r =>
    rw [stripBOM_cons]
    by_cases hc : c = '\uFEFF'
    · rw [if_pos hc]
      subst hc
      unfold containsXmlDecl listContains at h
      rcases Bool.or_eq_true_iff.mp h with hs | hcon
      · exfalso
        have hd : "<?xml".data = '<' :: "?xml".data := by decide
        rw [hd] at hs
        have hs2 : ((('\uFEFF' : Char) == '<') && listStartsWith r "?xml".data) = true := hs
        rw [Bool.and_eq_true_iff] at hs2
        exact absurd hs2.1 (by decide)
      · exact hcon
    · rw [if_neg hc]
      exact h

/-! ### cleanXML: assembly -- a second pass only strips an exposed BOM -/

theorem cleanXML_eq (l : List Char) :
    cleanXML l =
      if containsXmlDecl (fixAmp (fixAttr (stripNul (stripBOM l)))) then
        fixAmp (fixAttr (stripNul (stripBOM l)))
      else xmlDecl ++ fixAmp (fixAttr (stripNul (stripBOM l))) := rfl

theorem stripBOM_eq_self {l : List Char} (h : l.head? ≠ some '\uFEFF') :
    stripBOM l = l := by
  cases l with
  | nil => rfl
  | cons c r =>
    rw [stripBOM_cons, if_neg]
    intro hc
    exact h (by rw [hc]; rfl)

theorem xmlDecl_cons :
    xmlDecl = '<' :: "?xml version=\"1.0\" encoding=\"UTF-8\"?>\n".data := by
  decide

theorem stripBOM_xmlDecl_append (t : List Char) :
    stripBOM (xmlDecl ++ t) = xmlDecl ++ t := by
  rw [xmlDecl_cons, List.cons_append, stripBOM_cons, if_neg (by decide)]

/-- On a string that already satisfies the one-pass invariants (every
`=` harmless, every `&` an entity, no NUL, declaration present), a pass
reduces to BOM stripping. -/
theorem cleanXML_stable {t : List Char} (hsafe : EqSplitSafe t)
    (hamp : ampOk t = true) (hnul : '\x00' ∉ t)
    (hdec : containsXmlDecl t = true) : cleanXML t = stripBOM t := by
  rw [cleanXML_eq,
    stripNul_eq_self (nul_not_mem_stripBOM hnul),
    fixAttr_eq_self (eqSplitSafe_stripBOM hsafe),
    fixAmp_eq_self (ampOk_stripBOM hamp),
    if_pos (containsXmlDecl_stripBOM hdec)]

/-- A second cleaning pass only strips a BOM the first pass may have
exposed by deleting leading NUL bytes. -/
theorem cleanXML_cleanXML (s : List Char) :
    cleanXML (cleanXML s) = stripBOM (cleanXML s) := by
  have hsafe : EqSplitSafe (fixAmp (fixAttr (stripNul (stripBOM s)))) :=
    eqSplitSafe_fixAmp (eqSplitSafe_fixAttr _)
  have hamp : ampOk (fixAmp (fixAttr (stripNul (stripBOM s)))) = true := fixAmp_ampOk _
  have hnul : '\x00' ∉ fixAmp (fixAttr (stripNul (stripBOM s))) := by
    intro hmem
    rcases fixAmp_subset _ _ hmem with h1 | h2 | h2 | h2 | h2
    · rcases fixAttr_subset (stripNul (stripBOM s)).length _ (Nat.le_refl _) _ h1 with
        g1 | g2 | g2
      · exact nul_not_mem_stripNul _ g1
      · exact absurd g2 (by decide)
      · exact absurd g2 (by decide)
    · exact absurd h2 (by decide)
    · exact absurd h2 (by decide)
    · exact absurd h2 (by decide)
    · exact absurd h2 (by decide)
  by_cases hdec : containsXmlDecl (fixAmp (fixAttr (stripNul (stripBOM s)))) = true
  · have ht : cleanXML s = fixAmp (fixAttr (stripNul (stripBOM s))) := by
      rw [cleanXML_eq, if_pos hdec]
    rw [ht]
    exact cleanXML_stable hsafe hamp hnul hdec
  · have ht : cleanXML s = xmlDecl ++ fixAmp (fixAttr (stripNul (stripBOM s))) := by
      rw [cleanXML_eq, if_neg hdec]
    rw [ht]
    have hsafe2 : EqSplitSafe (xmlDecl ++ fixAmp (fixAttr (stripNul (stripBOM s)))) :=
      eqSplitSafe_append ((eqSplitSafeB_iff xmlDecl).mp (by decide)) hsafe (by decide)
        (by decide)
    have hamp2 : ampOk (xmlDecl ++ fixAmp (fixAttr (stripNul (stripBOM s)))) = true := by
      rw [ampOk_append_no_amp _ _ (by decide)]
      exact hamp
    have hnul2 : '\x00' ∉ xmlDecl ++ fixAmp (fixAttr (stripNul (stripBOM s))) := by
      intro hmem
      rcases List.mem_append.mp hmem with h1 | h2
      · exact absurd h1 (by decide)
      · exact hnul h2
    exact cleanXML_stable hsafe2 hamp2 hnul2 (containsXmlDecl_xmlDecl_append _)

/-- Claim C10 (counterexample): cleanXML is not idempotent.  The source
strips the BOM before deleting NUL bytes, so on `"\x00\uFEFF<?xml x"`
the NUL deletion exposes a byte-order mark that was not leading when
the BOM step ran; it survives the first pass and is removed by the
second, so the two passes disagree. -/
theorem claim_C10_counterexample :
    cleanXML (cleanXML "\x00\uFEFF<?xml x".data) ≠ cleanXML "\x00\uFEFF<?xml x".data ∧
    cleanXML "\x00\uFEFF<?xml x".data = "\uFEFF<?xml x".data ∧
    cleanXML (cleanXML "\x00\uFEFF<?xml x".data) = "<?xml x".data := by
  refine ⟨by decide, by decide, by decide⟩

/-- Claim C10 (amended): a single cleanXML pass need not be idempotent,
but the only possible difference is a leading byte-order mark exposed
by NUL stripping: for every input, a second pass equals `stripBOM` of
the first pass's output, and whenever the first pass's output does not
begin with U+FEFF the second pass changes nothing. -/
theorem claim_C10 (s : List Char) :
    cleanXML (cleanXML s) = stripBOM (cleanXML s) ∧
    ((cleanXML s).head? ≠ some '\uFEFF' → cleanXML (cleanXML s) = cleanXML s) := by
  refine ⟨cleanXML_cleanXML s, fun h => ?_⟩
  rw [cleanXML_cleanXML s]
  exact stripBOM_eq_self h

theorem claim_C10_witness :
    cleanXML (cleanXML "a & b=c".data) = cleanXML "a & b=c".data :=
  (claim_C10 "a & b=c".data).2 (by decide)

end JobImporter
